import Mathlib

/-! The Hack assembler of `main.go`.

A shallow embedding of `assemble` (src/main.go) and of the Go library
functions it calls, followed by theorems about the translation.

Modelling conventions.

* A Go string is a `List Char`.  The input is taken to be valid UTF-8, so
  that byte offsets of the ASCII markers `(`, `)`, `@`, `=`, `;`, `//`
  fall on character boundaries and byte-level slicing agrees with
  character-level slicing.
* The reader `r` is the list of texts `scanner.Text()` yields, one per line;
  a scanner failure (`scanner.Err()`) is outside the model.
* The writer `w` is the list of byte strings passed to `w.Write`, in order.
* Go `int` is 64 bits wide.  `len(instructions)` and `nextSymbolAddress`
  are far from that bound, so they are unbounded integers here; the width
  only matters in `atoi`, where it is explicit.
* A run-time panic (index or slice out of range) is an explicit outcome.
-/

namespace Assembler

/-- Go `string`. -/
abbrev Str := List Char

/-- Run-time panics of the Go code. -/
inductive Panic where
  | indexOutOfRange
  | sliceBoundsOutOfRange
  deriving DecidableEq, Repr

/-! ## Go library functions -/

/-- Go `unicode.IsSpace`. -/
def isSpace (c : Char) : Bool :=
  let n := c.toNat
  (9 ≤ n && n ≤ 13) || n = 32 || n = 0x85 || n = 0xA0 || n = 0x1680 ||
  (0x2000 ≤ n && n ≤ 0x200A) || n = 0x2028 || n = 0x2029 || n = 0x202F ||
  n = 0x205F || n = 0x3000

/-- Go `strings.TrimSpace`: leading and trailing white space removed. -/
def trimSpace (s : Str) : Str :=
  (s.dropWhile isSpace).rdropWhile isSpace

/-- Go `strings.HasPrefix`. -/
def hasPrefix (s p : Str) : Bool :=
  p.isPrefixOf s

/-- Go `strings.Index`: offset of the first occurrence of `sub` in `s`,
or `-1` when there is none. -/
def index : Str → Str → Int
  | [], sub => if sub = [] then 0 else -1
  | c :: s, sub =>
    if sub.isPrefixOf (c :: s) then 0
    else
      let i := index s sub
      if i < 0 then -1 else i + 1

/-- Go `strings.Contains`, which is `Index(s, substr) >= 0`. -/
def contains (s sub : Str) : Bool :=
  decide (0 ≤ index s sub)

/-- Worker of `split`: `skip` counts the characters of a separator just
matched that are still to be passed over, `cur` is the current piece,
reversed. -/
def splitGo (sep : Str) : Nat → Str → Str → List Str
  | _, [], cur => [cur.reverse]
  | skip + 1, _ :: s, cur => splitGo sep skip s cur
  | 0, c :: s, cur =>
    if sep.isPrefixOf (c :: s) then cur.reverse :: splitGo sep (sep.length - 1) s []
    else splitGo sep 0 s (c :: cur)

/-- Go `strings.Split` for a non-empty separator: the pieces of `s` between
the successive non-overlapping occurrences of `sep`, found left to right. -/
def split (s sep : Str) : List Str :=
  splitGo sep 0 s []

/-- Go indexing `xs[i]`, which panics when `i` is out of range. -/
def idx (xs : List Str) (i : Nat) : Except Panic Str :=
  match xs.get? i with
  | some x => .ok x
  | none => .error .indexOutOfRange

/-- Go slicing `s[lo:hi]`, which panics unless `0 ≤ lo ≤ hi ≤ len(s)`. -/
def slice (s : Str) (lo hi : Int) : Except Panic Str :=
  if 0 ≤ lo ∧ lo ≤ hi ∧ hi ≤ (s.length : Int) then
    .ok ((s.take hi.toNat).drop lo.toNat)
  else .error .sliceBoundsOutOfRange

/-- ASCII decimal digit, the test `ch - '0' <= 9` of `strconv`. -/
def isDigit (c : Char) : Bool :=
  48 ≤ c.toNat && c.toNat ≤ 57

/-- Value of a string of decimal digits. -/
def digitsValue (ds : Str) : Nat :=
  ds.foldl (fun n c => n * 10 + (c.toNat - 48)) 0

/-- Go `strconv.Atoi` on a 64-bit platform; `none` is a non-nil error
(syntax error, or value out of the range of `int`). -/
def atoi (s : Str) : Option Int :=
  let neg := hasPrefix s ['-']
  let ds := if hasPrefix s ['-'] || hasPrefix s ['+'] then s.drop 1 else s
  if ds = [] ∨ ds.all isDigit = false then none
  else
    let v := digitsValue ds
    if neg then (if v ≤ 2 ^ 63 then some (-(v : Int)) else none)
    else (if v < 2 ^ 63 then some (v : Int) else none)

/-- Binary digits of `n`, most significant first; `fuel` bounds the number
of digits. -/
def bits : Nat → Nat → Str
  | 0, _ => []
  | fuel + 1, n =>
    if n < 2 then [Nat.digitChar n] else bits fuel (n / 2) ++ [Nat.digitChar (n % 2)]

/-- Go `strconv.FormatInt(i, 2)`. -/
def formatInt (i : Int) : Str :=
  if i < 0 then '-' :: bits (i.natAbs + 1) i.natAbs else bits (i.natAbs + 1) i.natAbs

/-- Go `fmt.Sprintf("%016s", s)`: left-padded with zeros to width 16. -/
def pad16 (s : Str) : Str :=
  List.replicate (16 - s.length) '0' ++ s

/-- Two-valued Go map access `v, ok := m[k]`. -/
def mapGet {β : Type} (m : List (Str × β)) (k : Str) : Option β :=
  m.lookup k

/-- Go map assignment `m[k] = v`. -/
def mapSet {β : Type} (m : List (Str × β)) (k : Str) (v : β) : List (Str × β) :=
  (k, v) :: m

/-- One-valued access `m[k]` to a `map[string]string`: the empty string
when the key is absent. -/
def mapGetD (m : List (Str × Str)) (k : Str) : Str :=
  (m.lookup k).getD []

/-- A table given by string literals. -/
def table {β : Type} (xs : List (String × β)) : List (Str × β) :=
  xs.map fun p => (p.1.toList, p.2)

/-! ## The tables of `assemble` -/

/-- The initial `symbolMap` (main.go 46-70). -/
def symbolMap : List (Str × Int) :=
  table [("R0", 0), ("R1", 1), ("R2", 2), ("R3", 3), ("R4", 4), ("R5", 5),
    ("R6", 6), ("R7", 7), ("R8", 8), ("R9", 9), ("R10", 10), ("R11", 11),
    ("R12", 12), ("R13", 13), ("R14", 14), ("R15", 15), ("SCREEN", 16384),
    ("KBD", 24576), ("SP", 0), ("LCL", 1), ("ARG", 2), ("THIS", 3), ("THAT", 4)]

/-- The table `compSymbolMap` (main.go 72-101). -/
def compSymbolMap : List (Str × Str) :=
  table [("0", "0101010".toList), ("1", "0111111".toList), ("-1", "0111010".toList),
    ("D", "0001100".toList), ("A", "0110000".toList), ("!D", "0001101".toList),
    ("!A", "0110001".toList), ("-D", "0001111".toList), ("-A", "0110011".toList),
    ("D+1", "0011111".toList), ("A+1", "0110111".toList), ("D-1", "0001110".toList),
    ("A-1", "0110010".toList), ("D+A", "0000010".toList), ("D-A", "0010011".toList),
    ("A-D", "0000111".toList), ("D&A", "0000000".toList), ("D|A", "0010101".toList),
    ("M", "1110000".toList), ("!M", "1110001".toList), ("-M", "1110011".toList),
    ("M+1", "1110111".toList), ("M-1", "1110010".toList), ("D+M", "1000010".toList),
    ("D-M", "1010011".toList), ("M-D", "1000111".toList), ("D&M", "1000000".toList),
    ("D|M", "1010101".toList)]

/-- The table `destMap` (main.go 103-111). -/
def destMap : List (Str × Str) :=
  table [("M", "001".toList), ("D", "010".toList), ("MD", "011".toList),
    ("A", "100".toList), ("AM", "101".toList), ("AD", "110".toList),
    ("AMD", "111".toList)]

/-- The table `jumpMap` (main.go 113-121). -/
def jumpMap : List (Str × Str) :=
  table [("JGT", "001".toList), ("JEQ", "010".toList), ("JGE", "011".toList),
    ("JLT", "100".toList), ("JNE", "101".toList), ("JLE", "110".toList),
    ("JMP", "111".toList)]

/-! ## Pass 1 (main.go 125-153) -/

/-- The variables the first loop updates. -/
structure Pass1 where
  symbolMap : List (Str × Int)
  instructions : List Str

/-- The text of a line after `strings.TrimSpace` and
`strings.Split(line, "//")[0]` (main.go 129-130). -/
def cleanLine (raw : Str) : Except Panic Str :=
  idx (split (trimSpace raw) "//".toList) 0

/-- The body of the first loop from the empty-line test on (main.go 133-152),
for the cleaned text `line`. -/
def pass1Cleaned (st : Pass1) (line : Str) : Except Panic Pass1 :=
  if line.length = 0 then .ok st
  else if hasPrefix line "//".toList then .ok st
  else if hasPrefix line "(".toList then
    match slice line 1 (index line ")".toList) with
    | .error e => .error e
    | .ok label =>
      .ok { st with symbolMap := mapSet st.symbolMap label (st.instructions.length : Int) }
  else .ok { st with instructions := st.instructions ++ [line] }

/-- One iteration of the first loop (main.go 128-153). -/
def pass1Line (st : Pass1) (raw : Str) : Except Panic Pass1 :=
  match cleanLine raw with
  | .error e => .error e
  | .ok line => pass1Cleaned st line

/-- The first loop over all the lines of the input. -/
def pass1 : Pass1 → List Str → Except Panic Pass1
  | st, [] => .ok st
  | st, raw :: rest =>
    match pass1Line st raw with
    | .error e => .error e
    | .ok st' => pass1 st' rest

/-! ## Pass 2 (main.go 159-220) -/

/-- The variables the second loop updates. -/
structure Pass2 where
  symbolMap : List (Str × Int)
  nextSymbolAddress : Int

/-- Resolution of the operand of an address instruction (main.go 167-181):
the address and the state afterwards. -/
def resolve (st : Pass2) (address : Str) : Int × Pass2 :=
  match atoi address with
  | some addressInt => (addressInt, st)
  | none =>
    match mapGet st.symbolMap address with
    | some addressInt => (addressInt, st)
    | none =>
      (st.nextSymbolAddress,
        { symbolMap := mapSet st.symbolMap address st.nextSymbolAddress,
          nextSymbolAddress := st.nextSymbolAddress + 1 })

/-- The word written for the address `addressInt` (main.go 183-186). -/
def addressWord (addressInt : Int) : Str :=
  pad16 (formatInt addressInt) ++ ['\n']

/-- The branch of the second loop for an address instruction
(main.go 165-189): the bytes written and the state afterwards. -/
def aInstruction (st : Pass2) (instruction : Str) : Except Panic (Str × Pass2) :=
  match slice instruction 1 (instruction.length : Int) with
  | .error e => .error e
  | .ok address =>
    let r := resolve st address
    .ok (addressWord r.1, r.2)

/-- The field `compSymbol` (main.go 194-199). -/
def compSymbolOf (instruction : Str) : Except Panic Str :=
  if contains instruction "=".toList then idx (split instruction "=".toList) 1
  else idx (split instruction ";".toList) 0

/-- The field `dest` (main.go 204-209). -/
def destOf (instruction : Str) : Except Panic Str :=
  let d := split instruction "=".toList
  if d.length = 2 then
    match idx d 0 with
    | .error e => .error e
    | .ok k => .ok (mapGetD destMap k)
  else .ok "000".toList

/-- The field `jmp` (main.go 212-217). -/
def jmpOf (instruction : Str) : Except Panic Str :=
  let j := split instruction ";".toList
  if j.length = 2 then
    match idx j 1 with
    | .error e => .error e
    | .ok k => .ok (mapGetD jumpMap k)
  else .ok "000".toList

/-- The branch of the second loop for a compute instruction
(main.go 191-219): the bytes written. -/
def cInstruction (instruction : Str) : Except Panic Str :=
  match compSymbolOf instruction with
  | .error e => .error e
  | .ok compSymbol =>
    let comp := mapGetD compSymbolMap compSymbol
    match destOf instruction with
    | .error e => .error e
    | .ok dest =>
      match jmpOf instruction with
      | .error e => .error e
      | .ok jmp => .ok ("111".toList ++ comp ++ dest ++ jmp ++ ['\n'])

/-- One iteration of the second loop (main.go 161-220): the bytes written
and the state afterwards. -/
def pass2Instruction (st : Pass2) (instruction : Str) : Except Panic (Str × Pass2) :=
  if hasPrefix instruction "@".toList then aInstruction st instruction
  else
    match cInstruction instruction with
    | .error e => .error e
    | .ok word => .ok (word, st)

/-- What a loop leaves behind: the writes made, the final state when the
loop ran to its end, the panic otherwise. -/
structure Trace where
  written : List Str
  final : Except Panic Pass2

/-- The second loop over the instruction list. -/
def pass2 : Pass2 → List Str → Trace
  | st, [] => { written := [], final := .ok st }
  | st, instruction :: rest =>
    match pass2Instruction st instruction with
    | .error e => { written := [], final := .error e }
    | .ok (word, st') =>
      let t := pass2 st' rest
      { written := word :: t.written, final := t.final }

/-- How a call of `assemble` ends. -/
inductive Outcome where
  | returnedNil
  | panicked (p : Panic)
  deriving DecidableEq, Repr

/-- What a call of `assemble` does: the writes to `w` and the way it ends. -/
structure Run where
  written : List Str
  outcome : Outcome

/-- The function `assemble` (main.go 45-223) on the lines of the input. -/
def assemble (lines : List Str) : Run :=
  match pass1 { symbolMap := symbolMap, instructions := [] } lines with
  | .error e => { written := [], outcome := .panicked e }
  | .ok p =>
    let t := pass2 { symbolMap := p.symbolMap, nextSymbolAddress := 16 } p.instructions
    match t.final with
    | .error e => { written := t.written, outcome := .panicked e }
    | .ok _ => { written := t.written, outcome := .returnedNil }

/-- The writes of a run, as strings. -/
def output (lines : List String) : List String :=
  (assemble (lines.map String.toList)).written.map String.mk

/-! ## Notions used to state the properties -/

/-- The text of `s` before the first occurrence of `sep`, all of `s` when
there is none: what `strings.Split(s, sep)[0]` is. -/
def before (sep : Str) : Str → Str
  | [] => []
  | c :: s => if sep.isPrefixOf (c :: s) then [] else c :: before sep s

/-- The cleaned text of a raw line: the first piece of the trimmed line
split at `//`. -/
def cleaned (raw : Str) : Str :=
  (split (trimSpace raw) "//".toList).headD []

/-- A cleaned line is a label definition for pass 1 when it begins
with `(`. -/
def isLabelLine (line : Str) : Bool :=
  hasPrefix line "(".toList

/-- A cleaned line is collected as an instruction when it is not empty and
is not a label definition. -/
def isInstructionLine (line : Str) : Bool :=
  !(line.length = 0) && !isLabelLine line

/-- The instruction lines among raw lines, cleaned. -/
def instructionsOf (lines : List Str) : List Str :=
  (lines.map cleaned).filter isInstructionLine

/-- The name a cleaned line binds in pass 1, if it binds one. -/
def labelOf (line : Str) : Option Str :=
  if isLabelLine line then
    match slice line 1 (index line ")".toList) with
    | .ok label => some label
    | .error _ => none
  else none

/-- The state in which the second loop reaches instruction number `i`. -/
def stateAt (st : Pass2) (instructions : List Str) (i : Nat) : Except Panic Pass2 :=
  (pass2 st (instructions.take i)).final

/-- The state in which pass 1 starts. -/
def initial : Pass1 :=
  { symbolMap := symbolMap, instructions := [] }

/-- The state in which pass 2 starts after pass 1 ended in `p`. -/
def startOfPass2 (p : Pass1) : Pass2 :=
  { symbolMap := p.symbolMap, nextSymbolAddress := 16 }

/-- A decimal numeral: a non-empty string of decimal digits. -/
def isNumeral (s : Str) : Bool :=
  !(s.length = 0) && s.all isDigit

/-- A string of sixteen characters `0` or `1`. -/
def isWord16 (s : Str) : Bool :=
  s.length = 16 && s.all (fun c => c = '0' || c = '1')

/-- The number a string of binary digits denotes, most significant digit
first. -/
def binaryValue (s : Str) : Nat :=
  s.foldl (fun n c => 2 * n + (c.toNat - 48)) 0

/-- The compute-instruction texts with at most one clause, `comp`,
`dest=comp` and `comp;jump` with the fields taken from the three tables, each
with the sixteen digits made of `111` and the codes of its fields. -/
def computeForms : List (Str × Str) :=
  compSymbolMap.map (fun c => (c.1, "111".toList ++ c.2 ++ "000".toList ++ "000".toList)) ++
  destMap.flatMap (fun d => compSymbolMap.map fun c =>
    (d.1 ++ '=' :: c.1, "111".toList ++ c.2 ++ d.2 ++ "000".toList)) ++
  compSymbolMap.flatMap (fun c => jumpMap.map fun j =>
    (c.1 ++ ';' :: j.1, "111".toList ++ c.2 ++ "000".toList ++ j.2))

/-- The operand of an address instruction, `instruction[1:]`; `none` for a
compute instruction. -/
def operandOf (instruction : Str) : Option Str :=
  if hasPrefix instruction "@".toList then some (instruction.drop 1) else none

/-- The distinct members of a list, in the order of their first
occurrences. -/
def firstOccurrences : List Str → List Str
  | [] => []
  | x :: xs => x :: (firstOccurrences xs).filter (fun y => !(y == x))

/-- The distinct operands of address instructions that `atoi` rejects and
that the table `m` does not hold, in the order of their first occurrences. -/
def newSymbols (m : List (Str × Int)) (instructions : List Str) : List Str :=
  firstOccurrences ((instructions.filterMap operandOf).filter
    (fun t => (atoi t).isNone && (mapGet m t).isNone))

/-- The same list with "is not a decimal numeral" in the place of "is
rejected by `atoi`". -/
def newSymbolsByNumeral (m : List (Str × Int)) (instructions : List Str) : List Str :=
  firstOccurrences ((instructions.filterMap operandOf).filter
    (fun t => !isNumeral t && (mapGet m t).isNone))

/-- The first key of a table that carries the code `code`, the empty string
when there is none. -/
def keyOf (m : List (Str × Str)) (code : Str) : Str :=
  ((m.find? (fun e => e.2 == code)).map Prod.fst).getD []

/-- The compute-instruction text read back from a sixteen-digit word: the
keys of its computation, destination and jump fields, with `=` when there is
a destination key and `;` when there is a jump key. -/
def decodeWord (w : Str) : Str :=
  let comp := keyOf compSymbolMap ((w.drop 3).take 7)
  let dest := keyOf destMap ((w.drop 10).take 3)
  let jump := keyOf jumpMap ((w.drop 13).take 3)
  if dest ≠ [] then dest ++ '=' :: comp
  else if jump ≠ [] then comp ++ ';' :: jump
  else comp

/-- A computation expression with `A` in the place of `M`. -/
def withAForM (s : Str) : Str :=
  s.map (fun c => if c = 'M' then 'A' else c)

/-- The number that a string of digits denotes in base `base`, most
significant digit first, computed by `Nat.ofDigits` of Mathlib.  It is the
yardstick for the values of numerals and of written words, and takes no part
in the translation. -/
def numberOf (base : Nat) (s : Str) : Nat :=
  Nat.ofDigits base ((s.map fun c => c.toNat - 48).reverse)

/-! ## Sample programs -/

/-- A program that refers to the variable `x` twice. -/
def sampleRepeat : List Str :=
  ["@x".toList, "D=A".toList, "@x".toList]

/-- A program that refers to seeded names before its first variable. -/
def sampleSeeded : List Str :=
  ["@R1".toList, "@SCREEN".toList, "@v".toList]

/-- A program that rebinds the seeded name `R0` as a label. -/
def sampleRebind : List Str :=
  ["D=M".toList, "(R0)".toList]

/-- A program with two variables, the first referred to twice. -/
def sampleVariables : List Str :=
  ["@foo".toList, "@R1".toList, "@bar".toList, "@foo".toList]

/-- A program with a label line that lacks its closing mark. -/
def sampleUnterminated : List Str :=
  ["@1".toList, "(LOOP".toList, "D=M".toList]

/-- A program with a label, comments, blanks and a variable. -/
def sampleLoop : List Str :=
  ["  // count".toList, "(LOOP)".toList, "@i".toList, "M=M+1".toList, "".toList,
    "@LOOP".toList, "0;JMP".toList]

/-! ## Lemmas on the library functions -/

theorem splitGo_ne_nil (sep : Str) (s : Str) :
    ∀ (skip : Nat) (cur : Str), splitGo sep skip s cur ≠ [] := by
  induction s with
  | nil => intro skip cur; simp [splitGo]
  | cons c s ih =>
    intro skip cur
    cases skip with
    | zero =>
      simp only [splitGo]
      split
      · simp
      · exact ih 0 (c :: cur)
    | succ k => simp only [splitGo]; exact ih k cur

theorem split_ne_nil (s sep : Str) : split s sep ≠ [] :=
  splitGo_ne_nil sep s 0 []

theorem splitGo_length_of_index (sep : Str) (hsep : sep ≠ []) (s : Str) :
    ∀ cur : Str, 0 ≤ index s sep → 2 ≤ (splitGo sep 0 s cur).length := by
  induction s with
  | nil => intro cur h; simp [index, hsep] at h
  | cons c s ih =>
    intro cur h
    simp only [splitGo]
    by_cases hp : sep.isPrefixOf (c :: s) = true
    · rw [if_pos hp]
      have := splitGo_ne_nil sep s (sep.length - 1) []
      have := List.length_pos.mpr this
      simp only [List.length_cons]; omega
    · rw [if_neg hp]
      apply ih
      simp only [index, if_neg hp] at h
      by_contra hneg
      rw [if_pos (by omega)] at h
      omega

theorem split_length_of_contains (s sep : Str) (hsep : sep ≠ [])
    (h : contains s sep = true) : 2 ≤ (split s sep).length := by
  apply splitGo_length_of_index sep hsep
  simpa [contains] using h

theorem idx_zero_split (s sep : Str) : idx (split s sep) 0 = .ok ((split s sep).headD []) := by
  have h := split_ne_nil s sep
  cases hs : split s sep with
  | nil => exact absurd hs h
  | cons a l => simp [idx]

theorem cleanLine_eq (raw : Str) : cleanLine raw = .ok (cleaned raw) := by
  simp [cleanLine, cleaned, idx_zero_split]

theorem hasPrefix_singleton (s : Str) (c : Char) :
    hasPrefix s [c] = true ↔ ∃ t, s = c :: t := by
  cases s with
  | nil => simp [hasPrefix, List.isPrefixOf]
  | cons a t =>
    simp only [hasPrefix, List.isPrefixOf, List.cons.injEq, exists_eq_right', Bool.and_true,
      beq_iff_eq]
    exact eq_comm

theorem mapGet_mapSet {β : Type} (m : List (Str × β)) (a k : Str) (v : β) :
    mapGet (mapSet m a v) k = if k = a then some v else mapGet m k := by
  by_cases h : k = a
  · subst h; simp [mapGet, mapSet, List.lookup]
  · have hb : (k == a) = false := by simpa using h
    simp [mapGet, mapSet, List.lookup, hb, h]

theorem slice_tail (c : Char) (t : Str) :
    slice (c :: t) 1 ((c :: t).length : Int) = .ok t := by
  have h : (0 : Int) ≤ 1 ∧ (1 : Int) ≤ ((c :: t).length : Int) ∧
      ((c :: t).length : Int) ≤ ((c :: t).length : Int) := by
    simp only [List.length_cons, Nat.cast_add, Nat.cast_one]; omega
  rw [slice, if_pos h]
  simp

/-! ## Lemmas on numerals and binary words -/

theorem binaryValue_append (s : Str) (c : Char) :
    binaryValue (s ++ [c]) = 2 * binaryValue s + (c.toNat - 48) := by
  simp [binaryValue, List.foldl_append]

theorem bits_value : ∀ fuel n : Nat, n < fuel → binaryValue (bits fuel n) = n := by
  intro fuel
  induction fuel with
  | zero => intro n h; omega
  | succ f ih =>
    intro n h
    simp only [bits]
    by_cases h2 : n < 2
    · rw [if_pos h2]
      interval_cases n <;> rfl
    · rw [if_neg h2, binaryValue_append, ih (n / 2) (by omega)]
      have hm : n % 2 < 2 := Nat.mod_lt _ (by decide)
      have hd : (Nat.digitChar (n % 2)).toNat - 48 = n % 2 := by
        interval_cases (n % 2) <;> rfl
      rw [hd]
      omega

theorem bits_binary : ∀ fuel n : Nat, ∀ c ∈ bits fuel n, c = '0' ∨ c = '1' := by
  intro fuel
  induction fuel with
  | zero => intro n c hc; simp [bits] at hc
  | succ f ih =>
    intro n c hc
    simp only [bits] at hc
    by_cases h2 : n < 2
    · rw [if_pos h2] at hc
      simp only [List.mem_singleton] at hc
      subst hc
      interval_cases n
      · exact Or.inl rfl
      · exact Or.inr rfl
    · rw [if_neg h2] at hc
      rcases List.mem_append.mp hc with h | h
      · exact ih _ c h
      · simp only [List.mem_singleton] at h
        subst h
        have hm : n % 2 < 2 := Nat.mod_lt _ (by decide)
        interval_cases (n % 2)
        · exact Or.inl rfl
        · exact Or.inr rfl

theorem bits_length : ∀ fuel n k : Nat, 1 ≤ k → n < 2 ^ k → (bits fuel n).length ≤ k := by
  intro fuel
  induction fuel with
  | zero => intro n k _ _; simp [bits]
  | succ f ih =>
    intro n k hk hn
    simp only [bits]
    by_cases h2 : n < 2
    · rw [if_pos h2]; simpa using hk
    · rw [if_neg h2]
      have hk2 : 2 ≤ k := by
        by_contra hc
        have : k = 1 := by omega
        subst this
        simp at hn
        omega
      obtain ⟨k', rfl⟩ : ∃ k', k = k' + 1 := ⟨k - 1, by omega⟩
      have := ih (n / 2) k' (by omega) (by rw [pow_succ] at hn; omega)
      simp only [List.length_append, List.length_singleton]
      omega

theorem formatInt_natCast (n : Nat) : formatInt (n : Int) = bits (n + 1) n := by
  have h : ¬ ((n : Int) < 0) := by omega
  simp only [formatInt, if_neg h, Int.natAbs_ofNat]

theorem pad16_length (s : Str) (h : s.length ≤ 16) : (pad16 s).length = 16 := by
  simp only [pad16, List.length_append, List.length_replicate]
  omega

theorem binaryValue_pad16 (s : Str) : binaryValue (pad16 s) = binaryValue s := by
  have h : ∀ k : Nat, List.foldl (fun n c => 2 * n + (Char.toNat c - 48)) 0
      (List.replicate k '0') = 0 := by
    intro k
    induction k with
    | zero => rfl
    | succ k ih => rw [List.replicate_succ, List.foldl_cons]; exact ih
  simp only [binaryValue, pad16, List.foldl_append, h]

theorem pad16_head (s : Str) (h : s.length < 16) : (pad16 s).head? = some '0' := by
  obtain ⟨k, hk⟩ : ∃ k, 16 - s.length = k + 1 := ⟨15 - s.length, by omega⟩
  simp only [pad16, hk, List.replicate_succ, List.cons_append, List.head?_cons]

theorem pad16_binary (s : Str) (h : ∀ c ∈ s, c = '0' ∨ c = '1') :
    ∀ c ∈ pad16 s, c = '0' ∨ c = '1' := by
  intro c hc
  rcases List.mem_append.mp hc with h1 | h1
  · exact Or.inl (List.eq_of_mem_replicate h1)
  · exact h c h1

theorem isWord16_iff (s : Str) :
    isWord16 s = true ↔ s.length = 16 ∧ ∀ c ∈ s, c = '0' ∨ c = '1' := by
  simp [isWord16]

/-- An address in the range of sixteen bits is written as sixteen binary
digits that denote it. -/
theorem word_of_nat (n : Nat) (h : n < 65536) :
    isWord16 (pad16 (formatInt (n : Int))) = true ∧
      binaryValue (pad16 (formatInt (n : Int))) = n := by
  rw [formatInt_natCast, binaryValue_pad16, bits_value _ _ (Nat.lt_succ_self n)]
  refine ⟨(isWord16_iff _).mpr ⟨?_, ?_⟩, rfl⟩
  · exact pad16_length _ (bits_length _ n 16 (by decide) (by simpa using h))
  · exact pad16_binary _ (bits_binary _ n)

theorem isDigit_not_sign (c : Char) (h : isDigit c = true) : c ≠ '-' ∧ c ≠ '+' := by
  constructor <;> (rintro rfl; revert h; decide)

/-- The function `atoi` accepts a string of decimal digits whose value is in
the range of `int` and returns that value. -/
theorem atoi_of_numeral (t : Str) (h : isNumeral t = true) (hv : digitsValue t < 2 ^ 63) :
    atoi t = some (digitsValue t : Int) := by
  cases t with
  | nil => simp [isNumeral] at h
  | cons c r =>
    have hall : (c :: r).all isDigit = true := by
      simp only [isNumeral, Bool.and_eq_true] at h; exact h.2
    have hc : isDigit c = true := by
      simp only [List.all_cons, Bool.and_eq_true] at hall; exact hall.1
    obtain ⟨hm, hp⟩ := isDigit_not_sign c hc
    have h1 : hasPrefix (c :: r) ['-'] = false := by
      simp [hasPrefix, List.isPrefixOf, Ne.symm hm]
    have h2 : hasPrefix (c :: r) ['+'] = false := by
      simp [hasPrefix, List.isPrefixOf, Ne.symm hp]
    have h3 : ¬ ((c :: r) = [] ∨ (c :: r).all isDigit = false) := by
      rw [hall]; simp
    simp only [atoi, h1, h2, Bool.or_self, Bool.false_eq_true, if_false, if_neg h3, if_pos hv]

/-! ## Lemmas on pass 2 -/

theorem aInstruction_at (st : Pass2) (t : Str) :
    aInstruction st ('@' :: t) = .ok (addressWord (resolve st t).1, (resolve st t).2) := by
  simp only [aInstruction, slice_tail]

theorem compSymbolOf_ok (instruction : Str) : ∃ c, compSymbolOf instruction = .ok c := by
  unfold compSymbolOf
  split
  · rename_i h
    have hl := split_length_of_contains instruction "=".toList (by decide) h
    match hs : split instruction "=".toList, hl with
    | a :: b :: l, _ => exact ⟨b, by simp [idx]⟩
  · exact ⟨_, idx_zero_split _ _⟩

theorem destOf_ok (instruction : Str) : ∃ d, destOf instruction = .ok d := by
  unfold destOf
  match split instruction "=".toList with
  | [] => exact ⟨_, rfl⟩
  | [a] => exact ⟨_, rfl⟩
  | [a, b] => exact ⟨_, rfl⟩
  | a :: b :: c :: l => exact ⟨_, rfl⟩

theorem jmpOf_ok (instruction : Str) : ∃ j, jmpOf instruction = .ok j := by
  unfold jmpOf
  match split instruction ";".toList with
  | [] => exact ⟨_, rfl⟩
  | [a] => exact ⟨_, rfl⟩
  | [a, b] => exact ⟨_, rfl⟩
  | a :: b :: c :: l => exact ⟨_, rfl⟩

theorem cInstruction_ok (instruction : Str) :
    ∃ body, cInstruction instruction = .ok (body ++ ['\n']) := by
  obtain ⟨c, hc⟩ := compSymbolOf_ok instruction
  obtain ⟨d, hd⟩ := destOf_ok instruction
  obtain ⟨j, hj⟩ := jmpOf_ok instruction
  refine ⟨"111".toList ++ mapGetD compSymbolMap c ++ d ++ j, ?_⟩
  simp only [cInstruction, hc, hd, hj]

set_option maxRecDepth 100000 in
/-- Each text of `computeForms` is a compute instruction for which the code
writes the sixteen digits listed with it. -/
theorem computeForms_encoded :
    ∀ e ∈ computeForms, (cInstruction e.1).toOption = some (e.2 ++ ['\n']) ∧
      isWord16 e.2 = true ∧ hasPrefix e.1 "@".toList = false := by
  decide

theorem pass2Instruction_ok (st : Pass2) (instruction : Str) :
    ∃ w st', pass2Instruction st instruction = .ok (w, st') := by
  unfold pass2Instruction
  split
  · rename_i h
    obtain ⟨t, rfl⟩ := (hasPrefix_singleton instruction '@').mp h
    exact ⟨_, _, aInstruction_at st t⟩
  · obtain ⟨w, hw⟩ := cInstruction_ok instruction
    exact ⟨w ++ ['\n'], st, by simp only [hw]⟩

theorem pass2_cons (st st' : Pass2) (instruction word : Str) (rest : List Str)
    (h : pass2Instruction st instruction = .ok (word, st')) :
    pass2 st (instruction :: rest) =
      { written := word :: (pass2 st' rest).written, final := (pass2 st' rest).final } := by
  simp only [pass2, h]

theorem pass2_final_ok (instructions : List Str) :
    ∀ st : Pass2, ∃ s, (pass2 st instructions).final = .ok s := by
  induction instructions with
  | nil => intro st; exact ⟨st, rfl⟩
  | cons x rest ih =>
    intro st
    obtain ⟨w, st', h⟩ := pass2Instruction_ok st x
    rw [pass2_cons st st' x w rest h]
    exact ih st'

theorem pass2_written_length (instructions : List Str) :
    ∀ st : Pass2, (pass2 st instructions).written.length = instructions.length := by
  induction instructions with
  | nil => intro st; rfl
  | cons x rest ih =>
    intro st
    obtain ⟨w, st', h⟩ := pass2Instruction_ok st x
    rw [pass2_cons st st' x w rest h]
    simp [ih st']

theorem stateAt_zero (st : Pass2) (instructions : List Str) :
    stateAt st instructions 0 = .ok st := by
  simp [stateAt, pass2]

theorem stateAt_succ (st st' : Pass2) (x w : Str) (rest : List Str) (i : Nat)
    (h : pass2Instruction st x = .ok (w, st')) :
    stateAt st (x :: rest) (i + 1) = stateAt st' rest i := by
  simp only [stateAt, List.take_succ_cons, pass2_cons st st' x w _ h]

/-- Instruction number `i` is executed in the state `stateAt .. i`, writes
entry `i` of the output and leaves the state `stateAt .. (i + 1)`. -/
theorem pass2_at (instructions : List Str) :
    ∀ (st : Pass2) (i : Nat) (x : Str), instructions.get? i = some x →
      ∃ s w s', stateAt st instructions i = .ok s ∧
        pass2Instruction s x = .ok (w, s') ∧
        (pass2 st instructions).written.get? i = some w ∧
        stateAt st instructions (i + 1) = .ok s' := by
  induction instructions with
  | nil => intro st i x h; simp at h
  | cons y rest ih =>
    intro st i x hx
    obtain ⟨w, st', h⟩ := pass2Instruction_ok st y
    cases i with
    | zero =>
      simp only [List.get?_cons_zero, Option.some.injEq] at hx
      subst hx
      refine ⟨st, w, st', stateAt_zero _ _, h, ?_, ?_⟩
      · rw [pass2_cons st st' y w rest h]; rfl
      · rw [stateAt_succ st st' y w rest 0 h, stateAt_zero]
    | succ k =>
      simp only [List.get?_cons_succ] at hx
      obtain ⟨s, w', s', h1, h2, h3, h4⟩ := ih st' k x hx
      refine ⟨s, w', s', ?_, h2, ?_, ?_⟩
      · rw [stateAt_succ st st' y w rest k h]; exact h1
      · rw [pass2_cons st st' y w rest h]; simpa using h3
      · rw [stateAt_succ st st' y w rest (k + 1) h]; exact h4

theorem resolve_keeps (st : Pass2) (a k : Str) (v : Int)
    (h : mapGet st.symbolMap k = some v) :
    mapGet (resolve st a).2.symbolMap k = some v := by
  unfold resolve
  cases atoi a with
  | some n => exact h
  | none =>
    cases ha : mapGet st.symbolMap a with
    | some n => exact h
    | none =>
      simp only [mapGet_mapSet]
      by_cases hk : k = a
      · subst hk; rw [ha] at h; cases h
      · rw [if_neg hk]; exact h

theorem resolve_of_atoi (st : Pass2) (a : Str) (n : Int) (h : atoi a = some n) :
    resolve st a = (n, st) := by
  simp only [resolve, h]

theorem resolve_of_mapGet (st : Pass2) (a : Str) (v : Int) (h : atoi a = none)
    (hv : mapGet st.symbolMap a = some v) : resolve st a = (v, st) := by
  simp only [resolve, h, hv]

theorem resolve_of_absent (st : Pass2) (a : Str) (h : atoi a = none)
    (hv : mapGet st.symbolMap a = none) :
    resolve st a = (st.nextSymbolAddress,
      { symbolMap := mapSet st.symbolMap a st.nextSymbolAddress,
        nextSymbolAddress := st.nextSymbolAddress + 1 }) := by
  simp only [resolve, h, hv]

theorem resolve_binds (st : Pass2) (a : Str) (h : atoi a = none) :
    mapGet (resolve st a).2.symbolMap a = some (resolve st a).1 := by
  cases hv : mapGet st.symbolMap a with
  | some v => rw [resolve_of_mapGet st a v h hv]; exact hv
  | none => rw [resolve_of_absent st a h hv]; simp [mapGet_mapSet]

theorem pass2Instruction_at (st : Pass2) (t : Str) :
    pass2Instruction st ('@' :: t) =
      .ok (addressWord (resolve st t).1, (resolve st t).2) := by
  have h : hasPrefix ('@' :: t) "@".toList = true :=
    (hasPrefix_singleton _ '@').mpr ⟨t, rfl⟩
  rw [pass2Instruction, if_pos h, aInstruction_at]

theorem pass2Instruction_compute (st : Pass2) (x : Str)
    (h : hasPrefix x "@".toList = false) (w : Str) (st' : Pass2)
    (hw : pass2Instruction st x = .ok (w, st')) :
    cInstruction x = .ok w ∧ st' = st := by
  rw [pass2Instruction, if_neg (by rw [h]; exact Bool.false_ne_true)] at hw
  cases hc : cInstruction x with
  | error e => rw [hc] at hw; cases hw
  | ok w' =>
    rw [hc] at hw
    simp only [Except.ok.injEq, Prod.mk.injEq] at hw
    exact ⟨by rw [hw.1], hw.2.symm⟩

theorem pass2Instruction_keeps (st st' : Pass2) (x w k : Str) (v : Int)
    (h : pass2Instruction st x = .ok (w, st'))
    (hk : mapGet st.symbolMap k = some v) : mapGet st'.symbolMap k = some v := by
  by_cases hp : hasPrefix x "@".toList = true
  · obtain ⟨t, rfl⟩ := (hasPrefix_singleton x '@').mp hp
    rw [pass2Instruction_at] at h
    simp only [Except.ok.injEq, Prod.mk.injEq] at h
    rw [← h.2]
    exact resolve_keeps st t k v hk
  · have hp' : hasPrefix x "@".toList = false := by simpa using hp
    rw [(pass2Instruction_compute st x hp' w st' h).2]
    exact hk

/-- An entry present when the second loop reaches instruction `i` is still
there, unchanged, when it reaches any later instruction `j`. -/
theorem stateAt_keeps (instructions : List Str) :
    ∀ (st s s' : Pass2) (i j : Nat) (k : Str) (v : Int), i ≤ j →
      stateAt st instructions i = .ok s → stateAt st instructions j = .ok s' →
      mapGet s.symbolMap k = some v → mapGet s'.symbolMap k = some v := by
  induction instructions with
  | nil =>
    intro st s s' i j k v _ hi hj hk
    simp only [stateAt, List.take_nil, pass2, Except.ok.injEq] at hi hj
    rw [← hj, hi]; exact hk
  | cons y rest ih =>
    intro st s s' i j k v hij hi hj hk
    obtain ⟨w, st', h⟩ := pass2Instruction_ok st y
    cases j with
    | zero =>
      have hi0 : i = 0 := by omega
      subst hi0
      rw [hi] at hj
      simp only [Except.ok.injEq] at hj
      rw [← hj]; exact hk
    | succ j' =>
      rw [stateAt_succ st st' y w rest j' h] at hj
      cases i with
      | zero =>
        rw [stateAt_zero] at hi
        simp only [Except.ok.injEq] at hi
        subst hi
        have h0 := pass2Instruction_keeps st st' y w k v h hk
        exact ih st' st' s' 0 j' k v (Nat.zero_le _) (stateAt_zero _ _) hj h0
      | succ i' =>
        rw [stateAt_succ st st' y w rest i' h] at hi
        exact ih st' s s' i' j' k v (by omega) hi hj hk

/-! ## Lemmas on pass 1 -/

theorem before_initial (sep : Str) (s : Str) : before sep s <+: s := by
  induction s with
  | nil => simp [before]
  | cons c s ih =>
    simp only [before]
    split
    · exact List.nil_prefix
    · exact (List.prefix_cons_inj c).mpr ih

theorem splitGo_headD (sep : Str) (s : Str) :
    ∀ cur : Str, (splitGo sep 0 s cur).headD [] = cur.reverse ++ before sep s := by
  induction s with
  | nil => intro cur; simp [splitGo, before]
  | cons c s ih =>
    intro cur
    simp only [splitGo, before]
    split
    · simp
    · rw [ih]; simp

theorem cleaned_eq (raw : Str) : cleaned raw = before "//".toList (trimSpace raw) := by
  rw [cleaned, split, splitGo_headD]
  rfl

theorem sep_not_initial_of_before (sep : Str) (hsep : sep ≠ []) (s : Str) :
    sep.isPrefixOf (before sep s) = false := by
  induction s with
  | nil =>
    cases sep with
    | nil => exact absurd rfl hsep
    | cons a l => simp [before, List.isPrefixOf]
  | cons c s ih =>
    simp only [before]
    by_cases hp : sep.isPrefixOf (c :: s) = true
    · rw [if_pos hp]
      cases sep with
      | nil => exact absurd rfl hsep
      | cons a l => simp [List.isPrefixOf]
    · rw [if_neg hp]
      by_contra hc
      apply hp
      have h1 : sep <+: c :: before sep s := by
        rw [← List.isPrefixOf_iff_prefix]; simpa using hc
      have h2 : c :: before sep s <+: c :: s :=
        (List.prefix_cons_inj c).mpr (before_initial sep s)
      exact List.isPrefixOf_iff_prefix.mpr (h1.trans h2)

theorem cleaned_not_comment (raw : Str) : hasPrefix (cleaned raw) "//".toList = false := by
  rw [cleaned_eq, hasPrefix]
  exact sep_not_initial_of_before _ (by decide) _

theorem pass1Line_eq (st : Pass1) (raw : Str) :
    pass1Line st raw = pass1Cleaned st (cleaned raw) := by
  simp only [pass1Line, cleanLine_eq]

/-- What a successful iteration of the first loop does, in terms of
`isInstructionLine` and `labelOf`. -/
theorem pass1Line_ok (st st' : Pass1) (raw : Str) (h : pass1Line st raw = .ok st') :
    st'.instructions =
        st.instructions ++ (if isInstructionLine (cleaned raw) then [cleaned raw] else []) ∧
      st'.symbolMap =
        (match labelOf (cleaned raw) with
          | some label => mapSet st.symbolMap label (st.instructions.length : Int)
          | none => st.symbolMap) := by
  rw [pass1Line_eq] at h
  have hc := cleaned_not_comment raw
  generalize cleaned raw = line at h hc
  unfold pass1Cleaned at h
  by_cases h0 : line.length = 0
  · rw [if_pos h0] at h
    simp only [Except.ok.injEq] at h
    subst h
    have hl : line = [] := List.length_eq_zero.mp h0
    subst hl
    simp [isInstructionLine, labelOf, isLabelLine, hasPrefix, List.isPrefixOf]
  · rw [if_neg h0, if_neg (by rw [hc]; exact Bool.false_ne_true)] at h
    by_cases hp : hasPrefix line "(".toList = true
    · rw [if_pos hp] at h
      cases hs : slice line 1 (index line ")".toList) with
      | error e => rw [hs] at h; cases h
      | ok label =>
        rw [hs] at h
        simp only [Except.ok.injEq] at h
        subst h
        have hp2 : hasPrefix line ['('] = true := hp
        have hs2 : slice line 1 (index line [')']) = .ok label := hs
        simp [isInstructionLine, labelOf, isLabelLine, hp2, hs2]
    · rw [if_neg hp] at h
      simp only [Except.ok.injEq] at h
      subst h
      have hp2 : hasPrefix line ['('] = false := by simpa using hp
      have h1 : line ≠ [] := fun e => h0 (by rw [e]; rfl)
      simp [isInstructionLine, labelOf, isLabelLine, hp2, h1]

theorem instructionsOf_cons (raw : Str) (rest : List Str) :
    instructionsOf (raw :: rest) =
      (if isInstructionLine (cleaned raw) then [cleaned raw] else []) ++
        instructionsOf rest := by
  simp only [instructionsOf, List.map_cons, List.filter_cons]
  split <;> rfl

theorem pass1_cons (st : Pass1) (raw : Str) (rest : List Str) (p : Pass1)
    (h : pass1 st (raw :: rest) = .ok p) :
    ∃ st', pass1Line st raw = .ok st' ∧ pass1 st' rest = .ok p := by
  simp only [pass1] at h
  cases hl : pass1Line st raw with
  | error e => rw [hl] at h; cases h
  | ok st' => rw [hl] at h; exact ⟨st', rfl, h⟩

theorem pass1_instructions (lines : List Str) :
    ∀ st p : Pass1, pass1 st lines = .ok p →
      p.instructions = st.instructions ++ instructionsOf lines := by
  induction lines with
  | nil =>
    intro st p h
    simp only [pass1, Except.ok.injEq] at h
    subst h
    simp [instructionsOf]
  | cons raw rest ih =>
    intro st p h
    obtain ⟨st', h1, h2⟩ := pass1_cons st raw rest p h
    rw [ih st' p h2, (pass1Line_ok st st' raw h1).1, instructionsOf_cons, List.append_assoc]

theorem pass1_keeps (lines : List Str) (k : Str) :
    ∀ st p : Pass1, pass1 st lines = .ok p →
      (∀ r ∈ lines, labelOf (cleaned r) ≠ some k) →
      mapGet p.symbolMap k = mapGet st.symbolMap k := by
  induction lines with
  | nil =>
    intro st p h _
    simp only [pass1, Except.ok.injEq] at h
    subst h
    rfl
  | cons raw rest ih =>
    intro st p h hk
    obtain ⟨st', h1, h2⟩ := pass1_cons st raw rest p h
    rw [ih st' p h2 (fun r hr => hk r (List.mem_cons_of_mem _ hr)),
      (pass1Line_ok st st' raw h1).2]
    have hraw := hk raw (List.mem_cons_self _ _)
    cases hl : labelOf (cleaned raw) with
    | none => rfl
    | some label =>
      have hne : k ≠ label := by
        intro e
        apply hraw
        rw [hl, e]
      simp only [mapGet_mapSet, if_neg hne]

theorem pass1_append (a b : List Str) :
    ∀ st p : Pass1, pass1 st (a ++ b) = .ok p →
      ∃ s, pass1 st a = .ok s ∧ pass1 s b = .ok p := by
  induction a with
  | nil => intro st p h; exact ⟨st, rfl, h⟩
  | cons raw rest ih =>
    intro st p h
    obtain ⟨st', h1, h2⟩ := pass1_cons st raw (rest ++ b) p h
    obtain ⟨s, h3, h4⟩ := ih st' p h2
    exact ⟨s, by simp only [pass1, h1, h3], h4⟩

theorem pass1_join (a b : List Str) :
    ∀ st s p : Pass1, pass1 st a = .ok s → pass1 s b = .ok p →
      pass1 st (a ++ b) = .ok p := by
  induction a with
  | nil =>
    intro st s p ha hb
    simp only [pass1, Except.ok.injEq] at ha
    subst ha
    exact hb
  | cons raw rest ih =>
    intro st s p ha hb
    obtain ⟨st', h1, h2⟩ := pass1_cons st raw rest s ha
    simp only [List.cons_append, pass1, h1]
    exact ih st' s p h2 hb

/-! ## Lemmas on `assemble` -/

theorem assemble_of_pass1 (lines : List Str) (p : Pass1) (h : pass1 initial lines = .ok p) :
    assemble lines =
      { written := (pass2 (startOfPass2 p) p.instructions).written,
        outcome := .returnedNil } := by
  obtain ⟨s, hs⟩ := pass2_final_ok p.instructions (startOfPass2 p)
  have h' : pass1 { symbolMap := symbolMap, instructions := [] } lines = .ok p := h
  have hs' : (pass2 { symbolMap := p.symbolMap, nextSymbolAddress := 16 }
      p.instructions).final = .ok s := hs
  simp only [assemble, h', hs']
  rfl

theorem pass1_of_returnedNil (lines : List Str)
    (h : (assemble lines).outcome = .returnedNil) : ∃ p, pass1 initial lines = .ok p := by
  cases hp : pass1 initial lines with
  | ok p => exact ⟨p, rfl⟩
  | error e =>
    have hp' : pass1 { symbolMap := symbolMap, instructions := [] } lines = .error e := hp
    simp [assemble, hp'] at h

/-- Two address instructions with the same text, at positions `i < j`:
the second writes what the first wrote and leaves the state as it finds
it. -/
theorem pass2_repeat (instructions : List Str) (st : Pass2) (i j : Nat) (t : Str)
    (hij : i < j)
    (hi : instructions.get? i = some ('@' :: t))
    (hj : instructions.get? j = some ('@' :: t)) :
    ∃ w s, (pass2 st instructions).written.get? i = some w ∧
      (pass2 st instructions).written.get? j = some w ∧
      stateAt st instructions j = .ok s ∧ stateAt st instructions (j + 1) = .ok s := by
  obtain ⟨si, wi, si', a1, a2, a3, a4⟩ := pass2_at instructions st i _ hi
  obtain ⟨sj, wj, sj', b1, b2, b3, b4⟩ := pass2_at instructions st j _ hj
  rw [pass2Instruction_at] at a2 b2
  simp only [Except.ok.injEq, Prod.mk.injEq] at a2 b2
  cases ht : atoi t with
  | some n =>
    rw [resolve_of_atoi _ t n ht] at a2 b2
    refine ⟨wi, sj, a3, ?_, b1, ?_⟩
    · rw [b3, ← b2.1, a2.1]
    · rw [b4, ← b2.2]
  | none =>
    have hb : mapGet si'.symbolMap t = some (resolve si t).1 := by
      rw [← a2.2]; exact resolve_binds si t ht
    have hk : mapGet sj.symbolMap t = some (resolve si t).1 :=
      stateAt_keeps instructions st si' sj (i + 1) j t _ hij a4 b1 hb
    rw [resolve_of_mapGet sj t _ ht hk] at b2
    refine ⟨wi, sj, a3, ?_, b1, ?_⟩
    · rw [b3, ← b2.1, a2.1]
    · rw [b4, ← b2.2]

theorem pass1_never_removes (lines : List Str) (k : Str) :
    ∀ st p : Pass1, pass1 st lines = .ok p →
      mapGet st.symbolMap k ≠ none → mapGet p.symbolMap k ≠ none := by
  induction lines with
  | nil =>
    intro st p h hk
    simp only [pass1, Except.ok.injEq] at h
    subst h
    exact hk
  | cons raw rest ih =>
    intro st p h hk
    obtain ⟨st', h1, h2⟩ := pass1_cons st raw rest p h
    apply ih st' p h2
    rw [(pass1Line_ok st st' raw h1).2]
    cases labelOf (cleaned raw) with
    | none => exact hk
    | some label =>
      simp only [mapGet_mapSet]
      split
      · simp
      · exact hk

/-- Every seeded name is found in the initial table with its constant, is
rejected by `atoi`, and its constant is written as sixteen binary digits
that denote it. -/
theorem symbolMap_entries :
    ∀ e ∈ symbolMap, mapGet symbolMap e.1 = some e.2 ∧ atoi e.1 = none ∧
      isWord16 (pad16 (formatInt e.2)) = true ∧
      (binaryValue (pad16 (formatInt e.2)) : Int) = e.2 := by
  decide

/-- A reference to a seeded name that no label line rebinds writes the
name's constant and leaves the state as it finds it. -/
theorem pass2_seeded (lines : List Str) (p : Pass1) (h : pass1 initial lines = .ok p)
    (name : Str) (c : Int) (hn : (name, c) ∈ symbolMap)
    (hl : ∀ r ∈ lines, labelOf (cleaned r) ≠ some name)
    (i : Nat) (hi : p.instructions.get? i = some ('@' :: name)) :
    ∃ s, stateAt (startOfPass2 p) p.instructions i = .ok s ∧
      stateAt (startOfPass2 p) p.instructions (i + 1) = .ok s ∧
      (pass2 (startOfPass2 p) p.instructions).written.get? i = some (addressWord c) := by
  obtain ⟨hget, hatoi, _, _⟩ := symbolMap_entries (name, c) hn
  have h0 : mapGet (startOfPass2 p).symbolMap name = some c := by
    have := pass1_keeps lines name initial p h hl
    rw [show (startOfPass2 p).symbolMap = p.symbolMap from rfl, this]
    exact hget
  obtain ⟨s, w, s', a1, a2, a3, a4⟩ := pass2_at p.instructions (startOfPass2 p) i _ hi
  have hs : mapGet s.symbolMap name = some c :=
    stateAt_keeps p.instructions (startOfPass2 p) (startOfPass2 p) s 0 i name c
      (Nat.zero_le _) (stateAt_zero _ _) a1 h0
  rw [pass2Instruction_at, resolve_of_mapGet s name c hatoi hs] at a2
  simp only [Except.ok.injEq, Prod.mk.injEq] at a2
  refine ⟨s, a1, ?_, ?_⟩
  · rw [a4, ← a2.2]
  · rw [a3, ← a2.1]

/-- A reference to a name that `atoi` rejects and that the table holds at
the start of pass 2 writes the address the table holds for it. -/
theorem pass2_bound (instructions : List Str) (st : Pass2) (name : Str) (v : Int)
    (ha : atoi name = none) (hv : mapGet st.symbolMap name = some v)
    (i : Nat) (hi : instructions.get? i = some ('@' :: name)) :
    (pass2 st instructions).written.get? i = some (addressWord v) := by
  obtain ⟨s, w, s', a1, a2, a3, _⟩ := pass2_at instructions st i _ hi
  have hs : mapGet s.symbolMap name = some v :=
    stateAt_keeps instructions st st s 0 i name v (Nat.zero_le _) (stateAt_zero _ _) a1 hv
  rw [pass2Instruction_at, resolve_of_mapGet s name v ha hs] at a2
  simp only [Except.ok.injEq, Prod.mk.injEq] at a2
  rw [a3, ← a2.1]

theorem index_close (r : Str) :
    ∀ L : Str, ')' ∉ L → index (L ++ ')' :: r) ")".toList = (L.length : Int) := by
  intro L
  induction L with
  | nil => intro _; simp [index, List.isPrefixOf]
  | cons c L ih =>
    intro h
    have hc : c ≠ ')' := fun e => h (by rw [e]; exact List.mem_cons_self _ _)
    have hL : ')' ∉ L := fun e => h (List.mem_cons_of_mem _ e)
    have hp : ¬ (")".toList.isPrefixOf (c :: (L ++ ')' :: r)) = true) := by
      simp [List.isPrefixOf, Ne.symm hc]
    have hi := ih hL
    have hi' : index (L.append (')' :: r)) ")".toList = (L.length : Int) := hi
    have : ¬ ((L.length : Int) < 0) := by omega
    simp only [List.cons_append, index]
    have hp' : ¬ (")".toList.isPrefixOf (c :: L.append (')' :: r)) = true) := hp
    rw [if_neg hp', hi', if_neg this]
    simp

/-- The cleaned line `(L)` binds the name `L` when `L` has no `)`. -/
theorem labelOf_paren (L : Str) (h : ')' ∉ L) : labelOf ('(' :: L ++ [')']) = some L := by
  have h1 : isLabelLine ('(' :: L ++ [')']) = true :=
    (hasPrefix_singleton _ '(').mpr ⟨_, rfl⟩
  have h2 : ')' ∉ '(' :: L := by
    intro e
    rcases List.mem_cons.mp e with e | e
    · cases e
    · exact h e
  have h3 : index ('(' :: L ++ [')']) ")".toList = ((L.length + 1 : Nat) : Int) := by
    have := index_close [] ('(' :: L) h2
    simpa using this
  have h4 : slice ('(' :: L ++ [')']) 1 ((L.length + 1 : Nat) : Int) = .ok L := by
    have hc : (0 : Int) ≤ 1 ∧ (1 : Int) ≤ ((L.length + 1 : Nat) : Int) ∧
        ((L.length + 1 : Nat) : Int) ≤ ((('(' :: L ++ [')']).length : Nat) : Int) := by
      simp only [List.length_cons, List.length_append, List.length_singleton]
      omega
    rw [slice, if_pos hc]
    simp
  simp only [labelOf, h1, h3, h4, if_true]

/-- A label bound by a line that no later line rebinds: every reference to
it writes the number of instruction lines before the binding line. -/
theorem label_resolved (pre post : List Str) (l L : Str) (p : Pass1)
    (h : pass1 initial (pre ++ l :: post) = .ok p)
    (hl : labelOf (cleaned l) = some L) (ha : atoi L = none)
    (hu : ∀ r ∈ post, labelOf (cleaned r) ≠ some L)
    (i : Nat) (hi : p.instructions.get? i = some ('@' :: L)) :
    (pass2 (startOfPass2 p) p.instructions).written.get? i =
      some (addressWord ((instructionsOf pre).length : Int)) := by
  obtain ⟨s1, h1, h2⟩ := pass1_append pre (l :: post) initial p h
  obtain ⟨s2, h3, h4⟩ := pass1_cons s1 l post p h2
  have hi1 : s1.instructions = instructionsOf pre := by
    simpa [initial] using pass1_instructions pre initial s1 h1
  have hm2 : s2.symbolMap = mapSet s1.symbolMap L (s1.instructions.length : Int) := by
    rw [(pass1Line_ok s1 s2 l h3).2, hl]
  have hp : mapGet p.symbolMap L = some ((instructionsOf pre).length : Int) := by
    rw [pass1_keeps post L s2 p h4 hu, hm2, mapGet_mapSet, if_pos rfl, hi1]
  exact pass2_bound p.instructions (startOfPass2 p) L _ ha hp i hi

/-! ## Lemmas on first occurrences -/

theorem firstOccurrences_filter (q : Str → Bool) (l : List Str) :
    firstOccurrences (l.filter q) = (firstOccurrences l).filter q := by
  induction l with
  | nil => rfl
  | cons x xs ih =>
    by_cases hq : q x = true
    · simp only [List.filter_cons, hq, if_true, firstOccurrences, ih, List.filter_filter,
        Bool.and_comm]
    · have hq' : q x = false := by simpa using hq
      simp only [List.filter_cons, hq', firstOccurrences, ih, List.filter_filter,
        Bool.false_eq_true, if_false]
      apply List.filter_congr
      intro y _
      by_cases hy : q y = true
      · have hne : (y == x) = false := by
          apply beq_false_of_ne
          intro e
          rw [e, hq'] at hy
          cases hy
        simp [hy, hne]
      · have hy' : q y = false := by simpa using hy
        simp [hy']

theorem mem_of_mem_firstOccurrences (l : List Str) (x : Str) :
    x ∈ firstOccurrences l → x ∈ l := by
  induction l with
  | nil => intro h; exact h
  | cons y ys ih =>
    intro h
    simp only [firstOccurrences] at h
    rcases List.mem_cons.mp h with h | h
    · rw [h]; exact List.mem_cons_self _ _
    · exact List.mem_cons_of_mem _ (ih (List.mem_filter.mp h).1)

theorem operandOf_at (a : Str) : operandOf ('@' :: a) = some a := by
  have h : hasPrefix ('@' :: a) "@".toList = true := (hasPrefix_singleton _ '@').mpr ⟨a, rfl⟩
  simp only [operandOf, h, if_true, List.drop_succ_cons, List.drop_zero]

theorem newSymbols_fresh (m : List (Str × Int)) (instructions : List Str) (t : Str)
    (h : t ∈ newSymbols m instructions) : atoi t = none ∧ mapGet m t = none := by
  have h1 := mem_of_mem_firstOccurrences _ _ h
  have h2 := (List.mem_filter.mp h1).2
  simpa using h2

theorem newSymbols_compute (m : List (Str × Int)) (y : Str) (rest : List Str)
    (hy : hasPrefix y "@".toList = false) : newSymbols m (y :: rest) = newSymbols m rest := by
  have h : operandOf y = none := by simp only [operandOf, hy, Bool.false_eq_true, if_false]
  simp only [newSymbols, List.filterMap_cons, h]

theorem newSymbols_known (m : List (Str × Int)) (a : Str) (rest : List Str)
    (h : ¬ (atoi a = none ∧ mapGet m a = none)) :
    newSymbols m (('@' :: a) :: rest) = newSymbols m rest := by
  have hf : ((atoi a).isNone && (mapGet m a).isNone) = false := by
    by_contra hc
    apply h
    simpa using hc
  simp only [newSymbols, List.filterMap_cons, operandOf_at, List.filter_cons, hf,
    Bool.false_eq_true, if_false]

theorem newSymbols_allocated (m : List (Str × Int)) (a : Str) (v : Int) (rest : List Str)
    (h1 : atoi a = none) (h2 : mapGet m a = none) :
    newSymbols m (('@' :: a) :: rest) = a :: newSymbols (mapSet m a v) rest := by
  have hf : ((atoi a).isNone && (mapGet m a).isNone) = true := by simp [h1, h2]
  simp only [newSymbols, List.filterMap_cons, operandOf_at, List.filter_cons, hf, if_true,
    firstOccurrences]
  congr 1
  rw [← firstOccurrences_filter, List.filter_filter]
  congr 1
  apply List.filter_congr
  intro t _
  rw [mapGet_mapSet]
  by_cases ht : t = a
  · subst ht; simp
  · have hb : (t == a) = false := beq_false_of_ne ht
    simp [ht, hb]

/-- The new symbol number `k` gets the address `nextSymbolAddress + k`, at
each of its occurrences. -/
theorem pass2_new_symbols (instructions : List Str) :
    ∀ (st : Pass2) (i k : Nat) (t : Str),
      instructions.get? i = some ('@' :: t) →
      (newSymbols st.symbolMap instructions).get? k = some t →
      (pass2 st instructions).written.get? i =
        some (addressWord (st.nextSymbolAddress + (k : Int))) := by
  induction instructions with
  | nil => intro st i k t hi; simp at hi
  | cons y rest ih =>
    intro st i k t hi hk
    by_cases hy : hasPrefix y "@".toList = true
    · obtain ⟨a, rfl⟩ := (hasPrefix_singleton y '@').mp hy
      have hstep := pass2Instruction_at st a
      by_cases hnew : atoi a = none ∧ mapGet st.symbolMap a = none
      · rw [resolve_of_absent st a hnew.1 hnew.2] at hstep
        rw [pass2_cons st _ _ _ rest hstep]
        rw [newSymbols_allocated st.symbolMap a st.nextSymbolAddress rest hnew.1 hnew.2] at hk
        have hnot : a ∉ newSymbols (mapSet st.symbolMap a st.nextSymbolAddress) rest := by
          intro hmem
          have := (newSymbols_fresh _ _ _ hmem).2
          rw [mapGet_mapSet, if_pos rfl] at this
          cases this
        cases i with
        | zero =>
          simp only [List.get?_cons_zero, Option.some.injEq, List.cons.injEq, true_and] at hi
          subst hi
          cases k with
          | zero => simp
          | succ k' =>
            simp only [List.get?_cons_succ] at hk
            exact absurd (List.get?_mem hk) hnot
        | succ i' =>
          simp only [List.get?_cons_succ] at hi
          cases k with
          | zero =>
            simp only [List.get?_cons_zero, Option.some.injEq] at hk
            subst hk
            simp only [List.get?_cons_succ, Nat.cast_zero, add_zero]
            exact pass2_bound rest _ a st.nextSymbolAddress hnew.1
              (by simp only [mapGet_mapSet, if_pos]) i' hi
          | succ k' =>
            simp only [List.get?_cons_succ] at hk
            have := ih { symbolMap := mapSet st.symbolMap a st.nextSymbolAddress,
                         nextSymbolAddress := st.nextSymbolAddress + 1 } i' k' t hi hk
            simp only [List.get?_cons_succ, this, Nat.cast_add, Nat.cast_one]
            congr 2
            ring
      · obtain ⟨v, hv⟩ : ∃ v, resolve st a = (v, st) := by
          cases h1 : atoi a with
          | some n => exact ⟨n, resolve_of_atoi st a n h1⟩
          | none =>
            cases h2 : mapGet st.symbolMap a with
            | some n => exact ⟨n, resolve_of_mapGet st a n h1 h2⟩
            | none => exact absurd ⟨h1, h2⟩ hnew
        rw [hv] at hstep
        rw [pass2_cons st _ _ _ rest hstep]
        rw [newSymbols_known st.symbolMap a rest hnew] at hk
        cases i with
        | zero =>
          simp only [List.get?_cons_zero, Option.some.injEq, List.cons.injEq, true_and] at hi
          subst hi
          exact absurd (newSymbols_fresh _ _ _ (List.get?_mem hk)) hnew
        | succ i' =>
          simp only [List.get?_cons_succ] at hi
          simpa using ih st i' k t hi hk
    · have hy' : hasPrefix y "@".toList = false := by simpa using hy
      obtain ⟨w, st', hstep⟩ := pass2Instruction_ok st y
      obtain ⟨_, hst⟩ := pass2Instruction_compute st y hy' w st' hstep
      subst hst
      rw [pass2_cons _ _ _ _ rest hstep]
      rw [newSymbols_compute st'.symbolMap y rest hy'] at hk
      cases i with
      | zero =>
        simp only [List.get?_cons_zero, Option.some.injEq] at hi
        subst hi
        exact absurd ((hasPrefix_singleton _ '@').mpr ⟨t, rfl⟩) hy
      | succ i' =>
        simp only [List.get?_cons_succ] at hi
        simpa using ih st' i' k t hi hk

theorem firstOccurrences_nodup (l : List Str) : (firstOccurrences l).Nodup := by
  induction l with
  | nil => exact List.nodup_nil
  | cons x xs ih =>
    simp only [firstOccurrences]
    apply List.nodup_cons.mpr
    constructor
    · intro h
      have := (List.mem_filter.mp h).2
      simp at this
    · exact ih.filter _

/-! ## The claims -/

/-- C1 (defect of the code): on `D=M;JGT`, a compute instruction with both
clauses, pass 2 takes `M;JGT` for the computation field, finds no code for it
and writes the nine-character word `111010001`, whereas the word made of the
codes of `M`, `D` and `JGT` is `1111110000010001`. -/
theorem C1_both_clauses_lose_comp :
    compSymbolOf "D=M;JGT".toList = .ok "M;JGT".toList ∧
    (assemble ["D=M;JGT".toList]).written = ["111010001\n".toList] ∧
    "111".toList ++ mapGetD compSymbolMap "M".toList ++ mapGetD destMap "D".toList ++
      mapGetD jumpMap "JGT".toList = "1111110000010001".toList :=
  ⟨rfl, by decide, by decide⟩

/-- C7: when `assemble` returns, pass 1 has collected exactly the cleaned
lines that are non-empty and are not label definitions, in order; the output
has as many entries as there are collected instructions; and entry `i` is what
the loop body writes for instruction `i` in the state the loop has reached
there. -/
theorem C7_one_word_per_instruction (lines : List Str)
    (h : (assemble lines).outcome = .returnedNil) :
    ∃ p, pass1 initial lines = .ok p ∧
      p.instructions = instructionsOf lines ∧
      (assemble lines).written.length = (instructionsOf lines).length ∧
      ∀ i x, (instructionsOf lines).get? i = some x →
        ∃ s w s', stateAt (startOfPass2 p) (instructionsOf lines) i = .ok s ∧
          pass2Instruction s x = .ok (w, s') ∧
          (assemble lines).written.get? i = some w := by
  obtain ⟨p, hp⟩ := pass1_of_returnedNil lines h
  have hi : p.instructions = instructionsOf lines := by
    simpa [initial] using pass1_instructions lines initial p hp
  refine ⟨p, hp, hi, ?_, ?_⟩
  · rw [assemble_of_pass1 lines p hp, pass2_written_length, hi]
  · intro i x hx
    rw [assemble_of_pass1 lines p hp, hi]
    obtain ⟨s, w, s', h1, h2, h3, _⟩ := pass2_at (instructionsOf lines) (startOfPass2 p) i x hx
    exact ⟨s, w, s', h1, h2, h3⟩

theorem C7_one_word_per_instruction_witness :
    ∃ p, pass1 initial ["(LOOP)".toList, "@LOOP".toList, " // end".toList, "0;JMP".toList] = .ok p ∧
      p.instructions =
        instructionsOf ["(LOOP)".toList, "@LOOP".toList, " // end".toList, "0;JMP".toList] ∧
      (assemble ["(LOOP)".toList, "@LOOP".toList, " // end".toList, "0;JMP".toList]).written.length =
        (instructionsOf
          ["(LOOP)".toList, "@LOOP".toList, " // end".toList, "0;JMP".toList]).length ∧
      ∀ i x,
        (instructionsOf
          ["(LOOP)".toList, "@LOOP".toList, " // end".toList, "0;JMP".toList]).get? i = some x →
        ∃ s w s',
          stateAt (startOfPass2 p)
            (instructionsOf
              ["(LOOP)".toList, "@LOOP".toList, " // end".toList, "0;JMP".toList]) i = .ok s ∧
          pass2Instruction s x = .ok (w, s') ∧
          (assemble
            ["(LOOP)".toList, "@LOOP".toList, " // end".toList, "0;JMP".toList]).written.get? i =
              some w :=
  C7_one_word_per_instruction
    ["(LOOP)".toList, "@LOOP".toList, " // end".toList, "0;JMP".toList] (by decide)

/-- C8 (defect of the code): the line `D=M   // copy` is trimmed before the
comment is cut off, so pass 1 collects `D=M   ` with its trailing blanks, not
`D=M`, and pass 2 then writes the nine-character word `111010000`. -/
theorem C8_trailing_blanks_kept :
    cleaned "D=M   // copy".toList = "D=M   ".toList ∧
    (pass1 initial ["D=M   // copy".toList]).toOption.map Pass1.instructions =
      some ["D=M   ".toList] ∧
    (assemble ["D=M   // copy".toList]).written = ["111010000\n".toList] ∧
    (assemble ["D=M".toList]).written = ["1111110000010000\n".toList] := by
  decide

/-- C9: in a program that pass 1 accepts, two address instructions with the
same cleaned text write the same word, wherever they stand; and the later of
the two leaves the state (symbol table and next variable address) exactly as
it finds it, so it allocates nothing. -/
theorem C9_same_text_same_word (lines : List Str) (p : Pass1)
    (h : pass1 initial lines = .ok p) (i j : Nat) (t : Str)
    (hi : p.instructions.get? i = some ('@' :: t))
    (hj : p.instructions.get? j = some ('@' :: t)) :
    (∃ w, (assemble lines).written.get? i = some w ∧
      (assemble lines).written.get? j = some w) ∧
    (i < j → ∃ s, stateAt (startOfPass2 p) p.instructions j = .ok s ∧
      stateAt (startOfPass2 p) p.instructions (j + 1) = .ok s) := by
  rw [assemble_of_pass1 lines p h]
  constructor
  · rcases Nat.lt_trichotomy i j with hlt | heq | hgt
    · obtain ⟨w, _, h1, h2, _⟩ := pass2_repeat p.instructions (startOfPass2 p) i j t hlt hi hj
      exact ⟨w, h1, h2⟩
    · subst heq
      obtain ⟨_, w, _, _, _, h3, _⟩ := pass2_at p.instructions (startOfPass2 p) i _ hi
      exact ⟨w, h3, h3⟩
    · obtain ⟨w, _, h1, h2, _⟩ := pass2_repeat p.instructions (startOfPass2 p) j i t hgt hj hi
      exact ⟨w, h2, h1⟩
  · intro hlt
    obtain ⟨_, s, _, _, h3, h4⟩ := pass2_repeat p.instructions (startOfPass2 p) i j t hlt hi hj
    exact ⟨s, h3, h4⟩

theorem C9_same_text_same_word_witness :
    pass1 initial sampleRepeat = .ok { symbolMap := symbolMap, instructions := sampleRepeat } ∧
    (∃ w, (assemble sampleRepeat).written.get? 0 = some w ∧
      (assemble sampleRepeat).written.get? 2 = some w) ∧
    (0 < 2 → ∃ s,
      stateAt (startOfPass2 { symbolMap := symbolMap, instructions := sampleRepeat })
        sampleRepeat 2 = .ok s ∧
      stateAt (startOfPass2 { symbolMap := symbolMap, instructions := sampleRepeat })
        sampleRepeat (2 + 1) = .ok s) :=
  ⟨rfl, C9_same_text_same_word sampleRepeat
    { symbolMap := symbolMap, instructions := sampleRepeat } rfl 0 2 "x".toList rfl rfl⟩

/-- C6: in a program that pass 1 accepts and that has no label line for the
seeded name `name` with constant `c`, every instruction `@name` writes `c` as
sixteen binary digits and a newline and leaves the state, the next variable
address included, as it finds it; and as long as only such instructions have
been executed the next variable address is still 16. -/
theorem C6_seeded_names (lines : List Str) (p : Pass1) (h : pass1 initial lines = .ok p)
    (name : Str) (c : Int) (hn : (name, c) ∈ symbolMap)
    (hl : ∀ r ∈ lines, labelOf (cleaned r) ≠ some name)
    (i : Nat) (hi : p.instructions.get? i = some ('@' :: name)) :
    ((assemble lines).written.get? i = some (pad16 (formatInt c) ++ ['\n']) ∧
      isWord16 (pad16 (formatInt c)) = true ∧
      (binaryValue (pad16 (formatInt c)) : Int) = c) ∧
    (∃ s, stateAt (startOfPass2 p) p.instructions i = .ok s ∧
      stateAt (startOfPass2 p) p.instructions (i + 1) = .ok s) ∧
    (∀ n, (∀ j, j < n → ∃ e ∈ symbolMap, p.instructions.get? j = some ('@' :: e.1) ∧
        ∀ r ∈ lines, labelOf (cleaned r) ≠ some e.1) →
      ∃ s, stateAt (startOfPass2 p) p.instructions n = .ok s ∧ s.nextSymbolAddress = 16) := by
  obtain ⟨s, h1, h2, h3⟩ := pass2_seeded lines p h name c hn hl i hi
  obtain ⟨_, _, hw, hv⟩ := symbolMap_entries (name, c) hn
  refine ⟨⟨?_, hw, hv⟩, ⟨s, h1, h2⟩, ?_⟩
  · rw [assemble_of_pass1 lines p h]; exact h3
  · intro n
    induction n with
    | zero => intro _; exact ⟨startOfPass2 p, stateAt_zero _ _, rfl⟩
    | succ m ih =>
      intro hall
      obtain ⟨sm, hm, h16⟩ := ih (fun j hj => hall j (Nat.lt_succ_of_lt hj))
      obtain ⟨e, he, hje, hle⟩ := hall m (Nat.lt_succ_self m)
      obtain ⟨s', b1, b2, _⟩ := pass2_seeded lines p h e.1 e.2 he hle m hje
      rw [hm] at b1
      simp only [Except.ok.injEq] at b1
      subst b1
      exact ⟨sm, b2, h16⟩

theorem C6_seeded_names_witness :
    pass1 initial sampleSeeded = .ok { symbolMap := symbolMap, instructions := sampleSeeded } ∧
    ((assemble sampleSeeded).written.get? 1 =
        some (pad16 (formatInt 16384) ++ ['\n']) ∧
      isWord16 (pad16 (formatInt 16384)) = true ∧
      (binaryValue (pad16 (formatInt 16384)) : Int) = 16384) ∧
    (∃ s, stateAt (startOfPass2 { symbolMap := symbolMap, instructions := sampleSeeded })
        sampleSeeded 1 = .ok s ∧
      stateAt (startOfPass2 { symbolMap := symbolMap, instructions := sampleSeeded })
        sampleSeeded (1 + 1) = .ok s) ∧
    (∀ n, (∀ j, j < n → ∃ e ∈ symbolMap, sampleSeeded.get? j = some ('@' :: e.1) ∧
        ∀ r ∈ sampleSeeded, labelOf (cleaned r) ≠ some e.1) →
      ∃ s, stateAt (startOfPass2 { symbolMap := symbolMap, instructions := sampleSeeded })
        sampleSeeded n = .ok s ∧ s.nextSymbolAddress = 16) :=
  ⟨rfl, C6_seeded_names sampleSeeded { symbolMap := symbolMap, instructions := sampleSeeded }
    rfl "SCREEN".toList 16384 (by decide) (by decide) 1 rfl⟩

/-- C10 (counterexample): `R0` is seeded with 0; after the lines `D=M` and
`(R0)` pass 1 has rebound it to 1, so an entry that was set is overwritten. -/
theorem C10_label_overwrites_entry :
    mapGet initial.symbolMap "R0".toList = some 0 ∧
    (pass1 initial sampleRebind).toOption.map (fun p => mapGet p.symbolMap "R0".toList) =
      some (some 1) := by
  decide

/-- C10 (amended): let pass 1 have reached the state `s` after the lines `a`
and end in `p` after the further lines `b`.  No name that has an entry in `s`
is without one in `p`; a name that no line of `b` binds as a label has in `p`
the entry it has in `s`; and in pass 2 an entry present when the loop reaches
instruction `i` is present with the same address when it reaches any later
instruction `j`.  A line that binds a label in the state `s` gives that name
the number of instructions collected so far, whatever entry the name had, and
leaves the entry of every other name as it is; and in pass 2 a name that
`atoi` rejects and the table does not hold is entered with the next variable
address.  So after `D=M` and `(R0)` the name `R0` has 1 and `KBD` still has
24576, and after `@foo` the name `foo` has 16 and the next address is 17. -/
theorem C10_table_growth (a b : List Str) (s p : Pass1)
    (ha : pass1 initial a = .ok s) (hb : pass1 s b = .ok p) :
    pass1 initial (a ++ b) = .ok p ∧
    (∀ k, mapGet s.symbolMap k ≠ none → mapGet p.symbolMap k ≠ none) ∧
    (∀ k, (∀ r ∈ b, labelOf (cleaned r) ≠ some k) →
      mapGet p.symbolMap k = mapGet s.symbolMap k) ∧
    (∀ i j si sj k v, i ≤ j →
      stateAt (startOfPass2 p) p.instructions i = .ok si →
      stateAt (startOfPass2 p) p.instructions j = .ok sj →
      mapGet si.symbolMap k = some v → mapGet sj.symbolMap k = some v) ∧
    (∀ (l label : Str) (s' : Pass1), pass1Line s l = .ok s' →
      labelOf (cleaned l) = some label →
      mapGet s'.symbolMap label = some ((instructionsOf a).length : Int) ∧
        ∀ k, k ≠ label → mapGet s'.symbolMap k = mapGet s.symbolMap k) ∧
    (∀ (st : Pass2) (t : Str), atoi t = none → mapGet st.symbolMap t = none →
      mapGet (resolve st t).2.symbolMap t = some st.nextSymbolAddress ∧
        (resolve st t).2.nextSymbolAddress = st.nextSymbolAddress + 1) ∧
    (pass1 initial sampleRebind).toOption.map
        (fun q => (mapGet q.symbolMap "R0".toList, mapGet q.symbolMap "KBD".toList,
          q.instructions)) =
      some (some 1, some 24576, ["D=M".toList]) ∧
    (stateAt { symbolMap := symbolMap, nextSymbolAddress := 16 } ["@foo".toList] 1).toOption.map
        (fun q => (mapGet q.symbolMap "foo".toList, mapGet q.symbolMap "R0".toList,
          q.nextSymbolAddress)) =
      some (some 16, some 0, 17) := by
  refine ⟨?_, ?_, ?_, ?_, ?_, ?_, by decide, by decide⟩
  · exact pass1_join a b initial s p ha hb
  · intro k hk
    exact pass1_never_removes b k s p hb hk
  · intro k hk
    exact pass1_keeps b k s p hb hk
  · intro i j si sj k v hij hi hj hk
    exact stateAt_keeps p.instructions (startOfPass2 p) si sj i j k v hij hi hj hk
  · intro l label s' hl hlab
    have hi : s.instructions = instructionsOf a := by
      simpa [initial] using pass1_instructions a initial s ha
    have hm : s'.symbolMap = mapSet s.symbolMap label (s.instructions.length : Int) := by
      rw [(pass1Line_ok s s' l hl).2, hlab]
    constructor
    · rw [hm, mapGet_mapSet, if_pos rfl, hi]
    · intro k hk
      rw [hm, mapGet_mapSet, if_neg hk]
  · intro st t h1 h2
    rw [resolve_of_absent st t h1 h2]
    exact ⟨by simp only [mapGet_mapSet, if_pos], rfl⟩

theorem C10_table_growth_witness :
    (pass1 initial ["(X)".toList] =
        .ok { symbolMap := mapSet symbolMap "X".toList 0, instructions := [] } ∧
      pass1 { symbolMap := mapSet symbolMap "X".toList 0, instructions := [] } sampleRebind =
        .ok { symbolMap := mapSet (mapSet symbolMap "X".toList 0) "R0".toList 1,
              instructions := ["D=M".toList] } ∧
      mapGet (mapSet (mapSet symbolMap "X".toList 0) "R0".toList 1) "X".toList = some 0 ∧
      mapGet (mapSet (mapSet symbolMap "X".toList 0) "R0".toList 1) "R0".toList = some 1 ∧
      mapGet (mapSet (mapSet symbolMap "X".toList 0) "R0".toList 1) "KBD".toList =
        some 24576) ∧
    pass1 initial (["(X)".toList] ++ sampleRebind) =
      .ok { symbolMap := mapSet (mapSet symbolMap "X".toList 0) "R0".toList 1,
            instructions := ["D=M".toList] } ∧
    (∀ k, mapGet (mapSet symbolMap "X".toList 0) k ≠ none →
      mapGet (mapSet (mapSet symbolMap "X".toList 0) "R0".toList 1) k ≠ none) ∧
    (∀ k, (∀ r ∈ sampleRebind, labelOf (cleaned r) ≠ some k) →
      mapGet (mapSet (mapSet symbolMap "X".toList 0) "R0".toList 1) k =
        mapGet (mapSet symbolMap "X".toList 0) k) ∧
    (∀ i j si sj k v, i ≤ j →
      stateAt (startOfPass2
        { symbolMap := mapSet (mapSet symbolMap "X".toList 0) "R0".toList 1,
          instructions := ["D=M".toList] }) ["D=M".toList] i = .ok si →
      stateAt (startOfPass2
        { symbolMap := mapSet (mapSet symbolMap "X".toList 0) "R0".toList 1,
          instructions := ["D=M".toList] }) ["D=M".toList] j = .ok sj →
      mapGet si.symbolMap k = some v → mapGet sj.symbolMap k = some v) ∧
    (∀ (l label : Str) (s' : Pass1),
      pass1Line { symbolMap := mapSet symbolMap "X".toList 0, instructions := [] } l = .ok s' →
      labelOf (cleaned l) = some label →
      mapGet s'.symbolMap label = some ((instructionsOf ["(X)".toList]).length : Int) ∧
        ∀ k, k ≠ label →
          mapGet s'.symbolMap k = mapGet (mapSet symbolMap "X".toList 0) k) ∧
    (∀ (st : Pass2) (t : Str), atoi t = none → mapGet st.symbolMap t = none →
      mapGet (resolve st t).2.symbolMap t = some st.nextSymbolAddress ∧
        (resolve st t).2.nextSymbolAddress = st.nextSymbolAddress + 1) ∧
    (pass1 initial sampleRebind).toOption.map
        (fun q => (mapGet q.symbolMap "R0".toList, mapGet q.symbolMap "KBD".toList,
          q.instructions)) =
      some (some 1, some 24576, ["D=M".toList]) ∧
    (stateAt { symbolMap := symbolMap, nextSymbolAddress := 16 } ["@foo".toList] 1).toOption.map
        (fun q => (mapGet q.symbolMap "foo".toList, mapGet q.symbolMap "R0".toList,
          q.nextSymbolAddress)) =
      some (some 16, some 0, 17) :=
  ⟨⟨rfl, rfl, by decide, by decide, by decide⟩,
    C10_table_growth ["(X)".toList] sampleRebind
      { symbolMap := mapSet symbolMap "X".toList 0, instructions := [] }
      { symbolMap := mapSet (mapSet symbolMap "X".toList 0) "R0".toList 1,
        instructions := ["D=M".toList] } rfl rfl⟩

theorem numberOf_append (base : Nat) (l : Str) (x : Char) :
    numberOf base (l ++ [x]) = (x.toNat - 48) + base * numberOf base l := by
  simp [numberOf, Nat.ofDigits_cons]

theorem digitsValue_eq_numberOf (t : Str) : digitsValue t = numberOf 10 t := by
  induction t using List.reverseRecOn with
  | nil => rfl
  | append_singleton l x ih =>
    have h : digitsValue (l ++ [x]) = digitsValue l * 10 + (x.toNat - 48) := by
      simp [digitsValue, List.foldl_append]
    rw [h, numberOf_append, ih]
    omega

theorem binaryValue_eq_numberOf (w : Str) : binaryValue w = numberOf 2 w := by
  induction w using List.reverseRecOn with
  | nil => rfl
  | append_singleton l x ih =>
    rw [binaryValue_append, numberOf_append, ih]
    omega

theorem isNumeral_of_digits (t : Str) (ht : t ≠ [])
    (hd : ∀ c ∈ t, 48 ≤ c.toNat ∧ c.toNat ≤ 57) : isNumeral t = true := by
  have h1 : ¬ (t.length = 0) := fun e => ht (List.length_eq_zero.mp e)
  have h2 : t.all isDigit = true := by
    rw [List.all_eq_true]
    intro c hc
    obtain ⟨a, b⟩ := hd c hc
    simp [isDigit, a, b]
  simp [isNumeral, h1, h2]

/-- C5: let `t` be a decimal numeral, a non-empty string of the characters
`0` to `9`, that denotes the number `n` in base 10, with `n` at most 32767.
In any state of pass 2, whatever its symbol table holds, the instruction `@t`
leaves the state as it is and writes a word `w` and a newline, where `w` has
sixteen characters, each `0` or `1`, the first of them `0`, and `w` denotes
`n` in base 2; `w` is the binary of `n` left-padded with zeros.  So `@2`
gives `0000000000000010`, `@32767` gives `0111111111111111`, and `@007`
gives `0000000000000111` even where `007` is bound in the symbol table. -/
theorem C5_numeral_address (t : Str) (n : Nat) (ht : t ≠ [])
    (hd : ∀ c ∈ t, 48 ≤ c.toNat ∧ c.toNat ≤ 57)
    (hn : numberOf 10 t = n) (hv : n ≤ 32767) (st : Pass2) :
    (∃ w : Str, pass2Instruction st ('@' :: t) = .ok (w ++ ['\n'], st) ∧
      w.length = 16 ∧ (∀ c ∈ w, c = '0' ∨ c = '1') ∧ w.head? = some '0' ∧
      numberOf 2 w = n ∧ w = pad16 (formatInt (n : Int))) ∧
    (assemble ["@2".toList, "@32767".toList, "@0".toList]).written =
      ["0000000000000010\n".toList, "0111111111111111\n".toList,
        "0000000000000000\n".toList] ∧
    (pass2Instruction
        { symbolMap := mapSet symbolMap "007".toList 9, nextSymbolAddress := 16 }
        "@007".toList).toOption.map Prod.fst = some "0000000000000111\n".toList := by
  refine ⟨?_, by decide, by decide⟩
  have hnum : isNumeral t = true := isNumeral_of_digits t ht hd
  have hval : digitsValue t = n := by rw [digitsValue_eq_numberOf, hn]
  have ha : atoi t = some (n : Int) := by
    have := atoi_of_numeral t hnum (by rw [hval]; exact lt_of_le_of_lt hv (by decide))
    rw [hval] at this
    exact this
  obtain ⟨hw, hb⟩ := word_of_nat n (by omega)
  obtain ⟨hlen, hbin⟩ := (isWord16_iff _).mp hw
  refine ⟨pad16 (formatInt (n : Int)), ?_, hlen, hbin, ?_, ?_, rfl⟩
  · rw [pass2Instruction_at, resolve_of_atoi st t _ ha]
    rfl
  · rw [formatInt_natCast]
    apply pad16_head
    have := bits_length (n + 1) n 15 (by decide) (lt_of_le_of_lt hv (by decide))
    omega
  · rw [← binaryValue_eq_numberOf]
    exact hb

theorem C5_numeral_address_witness :
    ("0712".toList ≠ [] ∧ (∀ c ∈ "0712".toList, 48 ≤ c.toNat ∧ c.toNat ≤ 57) ∧
      numberOf 10 "0712".toList = 712 ∧ 712 ≤ 32767) ∧
    (∃ w : Str,
      pass2Instruction
          { symbolMap := mapSet symbolMap "0712".toList 7, nextSymbolAddress := 16 }
          ('@' :: "0712".toList) =
        .ok (w ++ ['\n'],
          { symbolMap := mapSet symbolMap "0712".toList 7, nextSymbolAddress := 16 }) ∧
      w.length = 16 ∧ (∀ c ∈ w, c = '0' ∨ c = '1') ∧ w.head? = some '0' ∧
      numberOf 2 w = 712 ∧ w = pad16 (formatInt ((712 : Nat) : Int))) ∧
    (assemble ["@2".toList, "@32767".toList, "@0".toList]).written =
      ["0000000000000010\n".toList, "0111111111111111\n".toList,
        "0000000000000000\n".toList] ∧
    (pass2Instruction
        { symbolMap := mapSet symbolMap "007".toList 9, nextSymbolAddress := 16 }
        "@007".toList).toOption.map Prod.fst = some "0000000000000111\n".toList :=
  ⟨⟨by decide, by decide, by decide, by decide⟩,
    C5_numeral_address "0712".toList 712 (by decide) (by decide) (by decide) (by decide)
      { symbolMap := mapSet symbolMap "0712".toList 7, nextSymbolAddress := 16 }⟩

/-- C4 (counterexample): `assemble` translates the program `@65536` and the
line it writes has seventeen binary digits before the newline. -/
theorem C4_seventeen_digits :
    (assemble ["@65536".toList]).outcome = .returnedNil ∧
    (assemble ["@65536".toList]).written = ["10000000000000000\n".toList] ∧
    isWord16 "10000000000000000".toList = false := by
  decide

/-- C4 (amended): when `assemble` returns, every line written ends in a
newline; the line of an address instruction whose resolved address is in
0..65535, and the line of a compute instruction of one of the forms `comp`,
`dest=comp`, `comp;jump` with fields from the three tables, is sixteen
characters `0` or `1` followed by the newline. -/
theorem C4_word_shape (lines : List Str)
    (h : (assemble lines).outcome = .returnedNil) (i : Nat) (w : Str)
    (hw : (assemble lines).written.get? i = some w) :
    ∃ p x s body, pass1 initial lines = .ok p ∧ p.instructions.get? i = some x ∧
      stateAt (startOfPass2 p) p.instructions i = .ok s ∧
      w = body ++ ['\n'] ∧
      (∀ t, x = '@' :: t → 0 ≤ (resolve s t).1 → (resolve s t).1 < 65536 →
        isWord16 body = true) ∧
      (x ∈ computeForms.map Prod.fst → isWord16 body = true) := by
  obtain ⟨p, hp⟩ := pass1_of_returnedNil lines h
  rw [assemble_of_pass1 lines p hp] at hw
  have hlen : i < p.instructions.length := by
    have h1 := List.get?_eq_some.mp hw
    obtain ⟨h2, _⟩ := h1
    rwa [pass2_written_length] at h2
  obtain ⟨x, hx⟩ : ∃ x, p.instructions.get? i = some x :=
    ⟨_, List.get?_eq_get hlen⟩
  obtain ⟨s, w', s', a1, a2, a3, _⟩ := pass2_at p.instructions (startOfPass2 p) i x hx
  rw [hw] at a3
  simp only [Option.some.injEq] at a3
  subst a3
  by_cases hpre : hasPrefix x "@".toList = true
  · obtain ⟨t, rfl⟩ := (hasPrefix_singleton x '@').mp hpre
    rw [pass2Instruction_at] at a2
    simp only [Except.ok.injEq, Prod.mk.injEq] at a2
    refine ⟨p, _, s, pad16 (formatInt (resolve s t).1), hp, hx, a1, a2.1.symm, ?_, ?_⟩
    · intro t' ht' h0 h1
      simp only [List.cons.injEq, true_and] at ht'
      subst ht'
      obtain ⟨n, hn⟩ : ∃ n : Nat, (resolve s t).1 = (n : Int) :=
        ⟨(resolve s t).1.toNat, (Int.toNat_of_nonneg h0).symm⟩
      rw [hn]
      rw [hn] at h1
      exact (word_of_nat n (by omega)).1
    · intro hmem
      obtain ⟨e, he, hex⟩ := List.mem_map.mp hmem
      have := (computeForms_encoded e he).2.2
      rw [hex, hpre] at this
      cases this
  · have hpre' : hasPrefix x "@".toList = false := by simpa using hpre
    obtain ⟨hc, _⟩ := pass2Instruction_compute s x hpre' w s' a2
    obtain ⟨body, hb⟩ := cInstruction_ok x
    have hwb : w = body ++ ['\n'] := by
      rw [hc] at hb
      simpa using hb
    refine ⟨p, x, s, body, hp, hx, a1, hwb, ?_, ?_⟩
    · intro t ht
      subst ht
      exact absurd ((hasPrefix_singleton _ '@').mpr ⟨t, rfl⟩) hpre
    · intro hmem
      obtain ⟨e, he, hex⟩ := List.mem_map.mp hmem
      obtain ⟨h1, h2, _⟩ := computeForms_encoded e he
      rw [hex, hb] at h1
      simp only [Except.toOption, Option.some.injEq] at h1
      have : body = e.2 := List.append_cancel_right h1
      rw [this]
      exact h2

theorem C4_word_shape_witness :
    (assemble ["@R1".toList, "D=M".toList]).outcome = .returnedNil ∧
    (assemble ["@R1".toList, "D=M".toList]).written.get? 1 =
      some "1111110000010000\n".toList ∧
    ∃ p x s body, pass1 initial ["@R1".toList, "D=M".toList] = .ok p ∧
      p.instructions.get? 1 = some x ∧
      stateAt (startOfPass2 p) p.instructions 1 = .ok s ∧
      "1111110000010000\n".toList = body ++ ['\n'] ∧
      (∀ t, x = '@' :: t → 0 ≤ (resolve s t).1 → (resolve s t).1 < 65536 →
        isWord16 body = true) ∧
      (x ∈ computeForms.map Prod.fst → isWord16 body = true) :=
  ⟨by decide, by decide,
    C4_word_shape ["@R1".toList, "D=M".toList] (by decide) 1 "1111110000010000\n".toList
      (by decide)⟩

/-- C2 (counterexample): `+5` is not a decimal numeral and the program
`(+5)`, `@+5` binds it once, to 0, by the cleaned line `(+5)`; yet `@+5`
writes the binary of 5, because `atoi` accepts `+5`.  Likewise the cleaned
line `(a)b)` binds `a`, not `a)b`, and `@a)b` writes 16. -/
theorem C2_signed_label_read_as_number :
    isNumeral "+5".toList = false ∧
    cleaned "(+5)".toList = '(' :: "+5".toList ++ [')'] ∧
    instructionsOf ["(+5)".toList, "@+5".toList] = ['@' :: "+5".toList] ∧
    (assemble ["(+5)".toList, "@+5".toList]).written = ["0000000000000101\n".toList] ∧
    pad16 (formatInt ((instructionsOf []).length : Int)) ++ ['\n'] =
      "0000000000000000\n".toList ∧
    cleaned "(a)b)".toList = '(' :: "a)b".toList ++ [')'] ∧
    (assemble ["(a)b)".toList, "@a)b".toList]).written = ["0000000000010000\n".toList] := by
  decide

/-- C2 (amended): let a program that pass 1 accepts have the line `l` whose
cleaned text is `(L)`, where `L` has no `)` and is rejected by `atoi`, and let
no other line bind `L`.  Then every instruction `@L`, before or after `l`,
writes the zero-padded binary of the number of instruction lines that precede
`l`, and a newline. -/
theorem C2_label_reference (pre post : List Str) (l L : Str) (p : Pass1)
    (h : pass1 initial (pre ++ l :: post) = .ok p)
    (hl : cleaned l = '(' :: L ++ [')']) (hc : ')' ∉ L) (ha : atoi L = none)
    (hu : ∀ r ∈ pre ++ post, labelOf (cleaned r) ≠ some L)
    (i : Nat) (hi : p.instructions.get? i = some ('@' :: L)) :
    (assemble (pre ++ l :: post)).written.get? i =
      some (pad16 (formatInt ((instructionsOf pre).length : Int)) ++ ['\n']) := by
  rw [assemble_of_pass1 _ p h]
  have hl' : labelOf (cleaned l) = some L := by rw [hl]; exact labelOf_paren L hc
  exact label_resolved pre post l L p h hl' ha
    (fun r hr => hu r (List.mem_append_right _ hr)) i hi

theorem C2_label_reference_witness :
    pass1 initial (["@END".toList, "D=M".toList] ++ "(END)".toList :: ["@END".toList]) =
      .ok { symbolMap := mapSet symbolMap "END".toList 2,
            instructions := ["@END".toList, "D=M".toList, "@END".toList] } ∧
    (assemble (["@END".toList, "D=M".toList] ++ "(END)".toList :: ["@END".toList])).written.get? 0 =
      some (pad16 (formatInt ((instructionsOf ["@END".toList, "D=M".toList]).length : Int)) ++
        ['\n']) :=
  ⟨rfl, C2_label_reference ["@END".toList, "D=M".toList] ["@END".toList] "(END)".toList
    "END".toList
    { symbolMap := mapSet symbolMap "END".toList 2,
      instructions := ["@END".toList, "D=M".toList, "@END".toList] }
    rfl (by decide) (by decide) (by decide) (by decide) 0 rfl⟩

/-- C3 (counterexample): in the program `@+5`, `@foo` the operands that are
neither decimal numerals nor in the table pass 1 leaves are `+5` and `foo`, in
this order, yet `@+5` writes 5 and `@foo` writes 16, not 16 and 17.  In the
program `@99999999999999999999`, `@foo` the only such operand is `foo`, yet
`@foo` writes 17, the numeral, too large for `atoi`, having taken 16. -/
theorem C3_numeral_is_not_what_atoi_accepts :
    (pass1 initial ["@+5".toList, "@foo".toList]).toOption.map
        (fun p => (p.symbolMap, p.instructions)) =
      some (symbolMap, ["@+5".toList, "@foo".toList]) ∧
    newSymbolsByNumeral symbolMap ["@+5".toList, "@foo".toList] =
      ["+5".toList, "foo".toList] ∧
    (assemble ["@+5".toList, "@foo".toList]).written =
      ["0000000000000101\n".toList, "0000000000010000\n".toList] ∧
    newSymbolsByNumeral symbolMap ["@99999999999999999999".toList, "@foo".toList] =
      ["foo".toList] ∧
    (assemble ["@99999999999999999999".toList, "@foo".toList]).written =
      ["0000000000010000\n".toList, "0000000000010001\n".toList] ∧
    pad16 (formatInt 16) = "0000000000010000".toList ∧
    pad16 (formatInt 17) = "0000000000010001".toList := by
  decide

/-- C3 (amended): in a program that pass 1 accepts, list without repetition,
in the order of their first occurrences, the operands of address instructions
that `atoi` rejects and that the symbol table left by pass 1 does not hold.
Every instruction `@t` with `t` number `k` of that list writes the binary of
`16 + k` left-padded with zeros, and a newline: sixteen binary digits
denoting `16 + k` as long as `16 + k` is below 65536. -/
theorem C3_new_variables (lines : List Str) (p : Pass1) (h : pass1 initial lines = .ok p)
    (i k : Nat) (t : Str)
    (hi : p.instructions.get? i = some ('@' :: t))
    (hk : (newSymbols p.symbolMap p.instructions).get? k = some t) :
    (assemble lines).written.get? i =
        some (pad16 (formatInt ((16 + k : Nat) : Int)) ++ ['\n']) ∧
      (newSymbols p.symbolMap p.instructions).Nodup ∧
      (16 + k < 65536 →
        isWord16 (pad16 (formatInt ((16 + k : Nat) : Int))) = true ∧
        binaryValue (pad16 (formatInt ((16 + k : Nat) : Int))) = 16 + k) := by
  refine ⟨?_, firstOccurrences_nodup _, fun hlt => word_of_nat (16 + k) hlt⟩
  rw [assemble_of_pass1 lines p h]
  have := pass2_new_symbols p.instructions (startOfPass2 p) i k t hi hk
  rw [this]
  simp [addressWord, startOfPass2]

theorem C3_new_variables_witness :
    pass1 initial sampleVariables =
      .ok { symbolMap := symbolMap, instructions := sampleVariables } ∧
    sampleVariables.get? 2 = some ('@' :: "bar".toList) ∧
    (newSymbols symbolMap sampleVariables).get? 1 = some "bar".toList ∧
    (assemble sampleVariables).written.get? 2 =
        some (pad16 (formatInt ((16 + 1 : Nat) : Int)) ++ ['\n']) ∧
      (newSymbols symbolMap sampleVariables).Nodup ∧
      (16 + 1 < 65536 →
        isWord16 (pad16 (formatInt ((16 + 1 : Nat) : Int))) = true ∧
        binaryValue (pad16 (formatInt ((16 + 1 : Nat) : Int))) = 16 + 1) :=
  ⟨rfl, rfl, by decide,
    C3_new_variables sampleVariables { symbolMap := symbolMap, instructions := sampleVariables }
      rfl 2 1 "bar".toList rfl (by decide)⟩

/-! ## Lemmas on label lines -/

theorem index_char_cons (x c : Char) (s : Str) (h : c ≠ x) :
    index (c :: s) [x] = if index s [x] < 0 then -1 else index s [x] + 1 := by
  have hp : ¬ ([x].isPrefixOf (c :: s) = true) := by
    simp [List.isPrefixOf, Ne.symm h]
  simp only [index]
  rw [if_neg hp]

theorem index_char_absent (x : Char) : ∀ s : Str, x ∉ s → index s [x] = -1 := by
  intro s
  induction s with
  | nil => intro _; simp [index]
  | cons c s ih =>
    intro h
    have hc : c ≠ x := fun e => h (by rw [e]; exact List.mem_cons_self _ _)
    have hs : x ∉ s := fun e => h (List.mem_cons_of_mem _ e)
    rw [index_char_cons x c s hc, ih hs]
    rfl

theorem index_char_present (x : Char) :
    ∀ s : Str, x ∈ s → 0 ≤ index s [x] ∧ index s [x] < (s.length : Int) := by
  intro s
  induction s with
  | nil => intro h; cases h
  | cons c s ih =>
    intro h
    by_cases hc : c = x
    · subst hc
      have hp : [c].isPrefixOf (c :: s) = true := by simp [List.isPrefixOf]
      simp only [index, if_pos hp, List.length_cons, Nat.cast_add, Nat.cast_one]
      omega
    · have hs : x ∈ s := by
        rcases List.mem_cons.mp h with e | e
        · exact absurd e.symm hc
        · exact e
      obtain ⟨h0, h1⟩ := ih hs
      rw [index_char_cons x c s hc, if_neg (by omega)]
      simp only [List.length_cons, Nat.cast_add, Nat.cast_one]
      omega

/-- A line that begins with `(` and has no `)` makes the first loop
panic. -/
theorem pass1Line_unterminated (st : Pass1) (raw : Str)
    (h1 : hasPrefix (cleaned raw) "(".toList = true) (h2 : ')' ∉ cleaned raw) :
    pass1Line st raw = .error .sliceBoundsOutOfRange := by
  rw [pass1Line_eq]
  have hc := cleaned_not_comment raw
  generalize cleaned raw = line at h1 h2 hc
  obtain ⟨t, rfl⟩ := (hasPrefix_singleton line '(').mp h1
  have hlen : ¬ (('(' :: t).length = 0) := by simp
  have hi : index ('(' :: t) ")".toList = -1 := index_char_absent ')' _ h2
  have hs : slice ('(' :: t) 1 (-1) = .error .sliceBoundsOutOfRange := by
    have : ¬ ((0 : Int) ≤ 1 ∧ (1 : Int) ≤ -1 ∧ (-1 : Int) ≤ ((('(' :: t).length : Nat) : Int)) := by
      omega
    rw [slice, if_neg this]
  simp only [pass1Cleaned, if_neg hlen, hc, Bool.false_eq_true, if_false, h1, if_true, hi, hs]

/-- Every other line is accepted by the first loop. -/
theorem pass1Line_total (st : Pass1) (raw : Str)
    (h : hasPrefix (cleaned raw) "(".toList = true → ')' ∈ cleaned raw) :
    ∃ st', pass1Line st raw = .ok st' := by
  rw [pass1Line_eq]
  generalize cleaned raw = line at h
  unfold pass1Cleaned
  by_cases h0 : line.length = 0
  · rw [if_pos h0]; exact ⟨_, rfl⟩
  · rw [if_neg h0]
    by_cases hc : hasPrefix line "//".toList = true
    · rw [if_pos hc]; exact ⟨_, rfl⟩
    · rw [if_neg hc]
      by_cases hp : hasPrefix line "(".toList = true
      · rw [if_pos hp]
        obtain ⟨t, rfl⟩ := (hasPrefix_singleton line '(').mp hp
        have hm := h hp
        have ht : ')' ∈ t := by
          rcases List.mem_cons.mp hm with e | e
          · cases e
          · exact e
        obtain ⟨b0, b1⟩ := index_char_present ')' t ht
        have hi : index ('(' :: t) ")".toList = index t [')'] + 1 := by
          have := index_char_cons ')' '(' t (by decide)
          rw [if_neg (by omega)] at this
          exact this
        have hcond : (0 : Int) ≤ 1 ∧ (1 : Int) ≤ index t [')'] + 1 ∧
            index t [')'] + 1 ≤ ((('(' :: t).length : Nat) : Int) := by
          simp only [List.length_cons, Nat.cast_add, Nat.cast_one]
          omega
        rw [hi, slice, if_pos hcond]
        exact ⟨_, rfl⟩
      · rw [if_neg hp]; exact ⟨_, rfl⟩

theorem pass1Line_error (st : Pass1) (raw : Str) (e : Panic)
    (h : pass1Line st raw = .error e) :
    e = .sliceBoundsOutOfRange ∧ hasPrefix (cleaned raw) "(".toList = true ∧
      ')' ∉ cleaned raw := by
  by_cases hc : hasPrefix (cleaned raw) "(".toList = true ∧ ')' ∉ cleaned raw
  · rw [pass1Line_unterminated st raw hc.1 hc.2] at h
    simp only [Except.error.injEq] at h
    exact ⟨h.symm, hc⟩
  · obtain ⟨st', hst⟩ := pass1Line_total st raw (fun hp => by
      by_contra hn
      exact hc ⟨hp, hn⟩)
    rw [hst] at h
    cases h

theorem pass1_unterminated (lines : List Str) :
    ∀ st : Pass1,
      (∃ r ∈ lines, hasPrefix (cleaned r) "(".toList = true ∧ ')' ∉ cleaned r) →
      pass1 st lines = .error .sliceBoundsOutOfRange := by
  induction lines with
  | nil => intro st h; obtain ⟨r, hr, _⟩ := h; cases hr
  | cons raw rest ih =>
    intro st h
    simp only [pass1]
    cases hl : pass1Line st raw with
    | error e => rw [(pass1Line_error st raw e hl).1]
    | ok st' =>
      obtain ⟨r, hr, h1, h2⟩ := h
      rcases List.mem_cons.mp hr with e | e
      · subst e
        rw [pass1Line_unterminated st r h1 h2] at hl
        cases hl
      · exact ih st' ⟨r, e, h1, h2⟩

theorem pass1_total (lines : List Str) :
    ∀ st : Pass1,
      (∀ r ∈ lines, hasPrefix (cleaned r) "(".toList = true → ')' ∈ cleaned r) →
      ∃ p, pass1 st lines = .ok p := by
  induction lines with
  | nil => intro st _; exact ⟨st, rfl⟩
  | cons raw rest ih =>
    intro st h
    obtain ⟨st', hst⟩ := pass1Line_total st raw (h raw (List.mem_cons_self _ _))
    obtain ⟨p, hp⟩ := ih st' (fun r hr => h r (List.mem_cons_of_mem _ hr))
    exact ⟨p, by simp only [pass1, hst, hp]⟩

/-- C12: when some line of the program has a cleaned text that begins with
`(` and holds no `)`, `assemble` does not return: it panics with a slice out
of range, in pass 1, and nothing has been written. -/
theorem C12_unterminated_label_aborts (lines : List Str)
    (h : ∃ r ∈ lines, hasPrefix (cleaned r) "(".toList = true ∧ ')' ∉ cleaned r) :
    (assemble lines).outcome = .panicked .sliceBoundsOutOfRange ∧
      (assemble lines).outcome ≠ .returnedNil ∧
      (assemble lines).written = [] := by
  have hp : pass1 { symbolMap := symbolMap, instructions := [] } lines =
      .error .sliceBoundsOutOfRange := pass1_unterminated lines initial h
  have ha : assemble lines =
      { written := [], outcome := .panicked .sliceBoundsOutOfRange } := by
    simp only [assemble, hp]
  rw [ha]
  exact ⟨rfl, by simp, rfl⟩

theorem C12_unterminated_label_aborts_witness :
    (∃ r ∈ sampleUnterminated, hasPrefix (cleaned r) "(".toList = true ∧ ')' ∉ cleaned r) ∧
    (assemble sampleUnterminated).outcome = .panicked .sliceBoundsOutOfRange ∧
      (assemble sampleUnterminated).outcome ≠ .returnedNil ∧
      (assemble sampleUnterminated).written = [] :=
  ⟨by decide, C12_unterminated_label_aborts sampleUnterminated (by decide)⟩

/-- C17: when every cleaned line that begins with `(` also holds a `)`,
`assemble` returns, having written one entry per instruction line.  No index
or slice of the code can be out of range otherwise: a split has an element 0,
`instruction[1:]` exists for an instruction that begins with `@`, a split at
`=` has an element 1 when the instruction contains `=`, and an iteration of
the second loop never panics. -/
theorem C17_only_unterminated_labels_fail (lines : List Str)
    (h : ∀ r ∈ lines, hasPrefix (cleaned r) "(".toList = true → ')' ∈ cleaned r) :
    (assemble lines).outcome = .returnedNil ∧
      (assemble lines).written.length = (instructionsOf lines).length ∧
      (∀ s sep : Str, ∃ x, idx (split s sep) 0 = .ok x) ∧
      (∀ x : Str, hasPrefix x "@".toList = true →
        ∃ a, slice x 1 (x.length : Int) = .ok a) ∧
      (∀ x : Str, contains x "=".toList = true →
        ∃ c, idx (split x "=".toList) 1 = .ok c) ∧
      (∀ (st : Pass2) (x : Str), ∃ w st', pass2Instruction st x = .ok (w, st')) := by
  obtain ⟨p, hp⟩ := pass1_total lines initial h
  have hi : p.instructions = instructionsOf lines := by
    simpa [initial] using pass1_instructions lines initial p hp
  refine ⟨?_, ?_, ?_, ?_, ?_, ?_⟩
  · rw [assemble_of_pass1 lines p hp]
  · rw [assemble_of_pass1 lines p hp, pass2_written_length, hi]
  · intro s sep
    exact ⟨_, idx_zero_split s sep⟩
  · intro x hx
    obtain ⟨t, rfl⟩ := (hasPrefix_singleton x '@').mp hx
    exact ⟨t, slice_tail '@' t⟩
  · intro x hx
    have hl := split_length_of_contains x "=".toList (by decide) hx
    match hs : split x "=".toList, hl with
    | a :: b :: l, _ => exact ⟨b, by simp [idx]⟩
  · intro st x
    exact pass2Instruction_ok st x

theorem C17_only_unterminated_labels_fail_witness :
    (∀ r ∈ sampleLoop, hasPrefix (cleaned r) "(".toList = true → ')' ∈ cleaned r) ∧
    (assemble sampleLoop).outcome = .returnedNil ∧
      (assemble sampleLoop).written.length = (instructionsOf sampleLoop).length ∧
      (∀ s sep : Str, ∃ x, idx (split s sep) 0 = .ok x) ∧
      (∀ x : Str, hasPrefix x "@".toList = true →
        ∃ a, slice x 1 (x.length : Int) = .ok a) ∧
      (∀ x : Str, contains x "=".toList = true →
        ∃ c, idx (split x "=".toList) 1 = .ok c) ∧
      (∀ (st : Pass2) (x : Str), ∃ w st', pass2Instruction st x = .ok (w, st')) :=
  ⟨by decide, C17_only_unterminated_labels_fail sampleLoop (by decide)⟩

/-- C11 (counterexample): `99999999999999999999` is a decimal numeral, but
`atoi` rejects it as out of range; `@99999999999999999999` is then treated as
a new variable: it writes 16, enters the numeral in the symbol table and
advances the next variable address to 17. -/
theorem C11_long_numeral_allocated :
    isNumeral "99999999999999999999".toList = true ∧
    atoi "99999999999999999999".toList = none ∧
    (assemble ["@99999999999999999999".toList]).written = ["0000000000010000\n".toList] ∧
    (stateAt { symbolMap := symbolMap, nextSymbolAddress := 16 }
        ["@99999999999999999999".toList] 1).toOption.map
        (fun s => (mapGet s.symbolMap "99999999999999999999".toList, s.nextSymbolAddress)) =
      some (some 16, 17) := by
  decide

/-- C11 (amended): for a decimal numeral `t` whose value is below 2^63 and
any state of pass 2, the instruction `@t` writes the binary digits of the
value, left-padded with zeros to sixteen characters, and a newline, and
leaves the symbol table and the next variable address as they are. -/
theorem C11_numeral_in_range (t : Str) (ht : isNumeral t = true)
    (hv : digitsValue t < 2 ^ 63) (st : Pass2) :
    pass2Instruction st ('@' :: t) =
        .ok (pad16 (formatInt (digitsValue t : Int)) ++ ['\n'], st) ∧
      binaryValue (formatInt (digitsValue t : Int)) = digitsValue t ∧
      (∀ c ∈ formatInt (digitsValue t : Int), c = '0' ∨ c = '1') := by
  have ha : atoi t = some (digitsValue t : Int) := atoi_of_numeral t ht hv
  refine ⟨?_, ?_, ?_⟩
  · rw [pass2Instruction_at, resolve_of_atoi st t _ ha]
    rfl
  · rw [formatInt_natCast]
    exact bits_value _ _ (Nat.lt_succ_self _)
  · rw [formatInt_natCast]
    exact bits_binary _ _

theorem C11_numeral_in_range_witness :
    isNumeral "00070000".toList = true ∧ digitsValue "00070000".toList < 2 ^ 63 ∧
    pass2Instruction { symbolMap := symbolMap, nextSymbolAddress := 16 }
        ('@' :: "00070000".toList) =
      .ok (pad16 (formatInt (digitsValue "00070000".toList : Int)) ++ ['\n'],
        { symbolMap := symbolMap, nextSymbolAddress := 16 }) ∧
    binaryValue (formatInt (digitsValue "00070000".toList : Int)) =
      digitsValue "00070000".toList ∧
    (∀ c ∈ formatInt (digitsValue "00070000".toList : Int), c = '0' ∨ c = '1') :=
  ⟨by decide, by decide,
    C11_numeral_in_range "00070000".toList (by decide) (by decide)
      { symbolMap := symbolMap, nextSymbolAddress := 16 }⟩

/-- C13 (counterexample): in the program `D=Q` the computation field `Q` is
no key of the computation table, yet `assemble` returns and has written the
nine-character word `111010000`. -/
theorem C13_unknown_comp_is_translated :
    (compSymbolOf "D=Q".toList).toOption = some "Q".toList ∧
    mapGet compSymbolMap "Q".toList = none ∧
    (assemble ["D=Q".toList]).outcome = .returnedNil ∧
    (assemble ["D=Q".toList]).written = ["111010000\n".toList] := by
  decide

/-- C13 (amended): in a program that pass 1 accepts, a compute instruction
whose computation field is no key of the computation table does not stop
`assemble`: it returns, and for that instruction it has written `111`, then
nothing for the computation, then the destination and jump codes, and a
newline. -/
theorem C13_unknown_comp_written (lines : List Str) (p : Pass1)
    (h : pass1 initial lines = .ok p) (i : Nat) (x c : Str)
    (hx : p.instructions.get? i = some x) (hp : hasPrefix x "@".toList = false)
    (hc : compSymbolOf x = .ok c) (hk : mapGet compSymbolMap c = none) :
    (assemble lines).outcome = .returnedNil ∧
      ∃ d j, destOf x = .ok d ∧ jmpOf x = .ok j ∧
        (assemble lines).written.get? i = some ("111".toList ++ d ++ j ++ ['\n']) := by
  rw [assemble_of_pass1 lines p h]
  refine ⟨rfl, ?_⟩
  obtain ⟨s, w, s', _, a2, a3, _⟩ := pass2_at p.instructions (startOfPass2 p) i x hx
  obtain ⟨hw, _⟩ := pass2Instruction_compute s x hp w s' a2
  obtain ⟨d, hd⟩ := destOf_ok x
  obtain ⟨j, hj⟩ := jmpOf_ok x
  have hcomp : mapGetD compSymbolMap c = [] := by
    have : List.lookup c compSymbolMap = none := hk
    simp only [mapGetD, this, Option.getD_none]
  simp only [cInstruction, hc, hd, hj, hcomp, Except.ok.injEq] at hw
  refine ⟨d, j, hd, hj, ?_⟩
  rw [a3, ← hw]
  simp

theorem C13_unknown_comp_written_witness :
    pass1 initial ["@1".toList, "D=Q;JMP".toList] =
      .ok { symbolMap := symbolMap, instructions := ["@1".toList, "D=Q;JMP".toList] } ∧
    (assemble ["@1".toList, "D=Q;JMP".toList]).outcome = .returnedNil ∧
      ∃ d j, destOf "D=Q;JMP".toList = .ok d ∧ jmpOf "D=Q;JMP".toList = .ok j ∧
        (assemble ["@1".toList, "D=Q;JMP".toList]).written.get? 1 =
          some ("111".toList ++ d ++ j ++ ['\n']) :=
  ⟨rfl, C13_unknown_comp_written ["@1".toList, "D=Q;JMP".toList]
    { symbolMap := symbolMap, instructions := ["@1".toList, "D=Q;JMP".toList] }
    rfl 1 "D=Q;JMP".toList "Q;JMP".toList rfl (by decide) rfl (by decide)⟩

/-! ## Lemmas on blank and comment lines -/

theorem trimSpace_blank (ws : Str) (h : ∀ c ∈ ws, isSpace c = true) : trimSpace ws = [] := by
  have h1 : ws.dropWhile isSpace = [] := List.dropWhile_eq_nil_iff.mpr h
  rw [trimSpace, h1]
  rfl

theorem dropWhile_blank_append (ws rest : Str) (h : ∀ c ∈ ws, isSpace c = true) :
    (ws ++ '/' :: rest).dropWhile isSpace = '/' :: rest := by
  induction ws with
  | nil => rfl
  | cons c ws ih =>
    have hc : isSpace c = true := h c (List.mem_cons_self _ _)
    simp only [List.cons_append, List.dropWhile_cons, hc, if_true]
    exact ih (fun x hx => h x (List.mem_cons_of_mem _ hx))

theorem rdropWhile_comment (text : Str) :
    ∃ t, ('/' :: '/' :: text).rdropWhile isSpace = '/' :: '/' :: t := by
  induction text using List.reverseRecOn with
  | nil => exact ⟨[], by decide⟩
  | append_singleton l x ih =>
    have he : '/' :: '/' :: (l ++ [x]) = ('/' :: '/' :: l) ++ [x] := rfl
    rw [he, List.rdropWhile_concat]
    by_cases hx : isSpace x = true
    · rw [if_pos hx]; exact ih
    · rw [if_neg hx]; exact ⟨l ++ [x], rfl⟩

theorem before_of_initial (sep : Str) (c : Char) (s : Str)
    (h : sep.isPrefixOf (c :: s) = true) : before sep (c :: s) = [] := by
  simp only [before, h, if_true]

/-- A line of blanks, or of blanks and then a comment, has the empty
cleaned text. -/
theorem cleaned_blank (ws text blank : Str) (hws : ∀ c ∈ ws, isSpace c = true)
    (hb : blank = ws ∨ blank = ws ++ "//".toList ++ text) : cleaned blank = [] := by
  rw [cleaned_eq]
  rcases hb with hb | hb
  · rw [hb, trimSpace_blank ws hws]
    rfl
  · have h1 : blank = ws ++ '/' :: ('/' :: text) := by
      rw [hb]; simp
    have h2 : trimSpace blank = ('/' :: '/' :: text).rdropWhile isSpace := by
      rw [trimSpace, h1, dropWhile_blank_append ws _ hws]
    obtain ⟨t, ht⟩ := rdropWhile_comment text
    rw [h2, ht]
    exact before_of_initial _ _ _ (by simp [List.isPrefixOf])

theorem pass1Line_of_cleaned_nil (st : Pass1) (raw : Str) (h : cleaned raw = []) :
    pass1Line st raw = .ok st := by
  rw [pass1Line_eq, h]
  rfl

theorem pass1_skip (pre post : List Str) (blank : Str) (h : cleaned blank = []) :
    ∀ st : Pass1, pass1 st (pre ++ blank :: post) = pass1 st (pre ++ post) := by
  induction pre with
  | nil =>
    intro st
    simp only [List.nil_append, pass1, pass1Line_of_cleaned_nil st blank h]
  | cons raw rest ih =>
    intro st
    simp only [List.cons_append, pass1]
    cases pass1Line st raw with
    | error e => rfl
    | ok st' => exact ih st'

/-- C14: inserting, anywhere in a program, a line that is empty, made of
white space only, or made of optional white space followed by `//` and any
text leaves pass 1 with the same result (the same instruction list and the
same symbol table, or the same panic) and leaves `assemble` with the same
output and the same outcome. -/
theorem C14_blank_lines_ignored (pre post : List Str) (ws text blank : Str)
    (hws : ∀ c ∈ ws, isSpace c = true)
    (hb : blank = ws ∨ blank = ws ++ "//".toList ++ text) :
    pass1 initial (pre ++ blank :: post) = pass1 initial (pre ++ post) ∧
      assemble (pre ++ blank :: post) = assemble (pre ++ post) := by
  have h := pass1_skip pre post blank (cleaned_blank ws text blank hws hb) initial
  refine ⟨h, ?_⟩
  have h' : pass1 { symbolMap := symbolMap, instructions := [] } (pre ++ blank :: post) =
      pass1 { symbolMap := symbolMap, instructions := [] } (pre ++ post) := h
  simp only [assemble, h']

theorem C14_blank_lines_ignored_witness :
    (∀ c ∈ " \t".toList, isSpace c = true) ∧
    (" \t// loop  ".toList = " \t".toList ∨
      " \t// loop  ".toList = " \t".toList ++ "//".toList ++ " loop  ".toList) ∧
    pass1 initial (["(LOOP)".toList] ++ " \t// loop  ".toList :: ["@LOOP".toList]) =
      pass1 initial (["(LOOP)".toList] ++ ["@LOOP".toList]) ∧
    assemble (["(LOOP)".toList] ++ " \t// loop  ".toList :: ["@LOOP".toList]) =
      assemble (["(LOOP)".toList] ++ ["@LOOP".toList]) :=
  ⟨by decide, by decide,
    C14_blank_lines_ignored ["(LOOP)".toList] ["@LOOP".toList] " \t".toList
      " loop  ".toList " \t// loop  ".toList (by decide) (by decide)⟩

/-! ## Lemmas on the compute forms -/

theorem mem_computeForms_comp (c : Str × Str) (hc : c ∈ compSymbolMap) :
    (c.1, "111".toList ++ c.2 ++ "000".toList ++ "000".toList) ∈ computeForms := by
  unfold computeForms
  exact List.mem_append_left _ (List.mem_append_left _ (List.mem_map.mpr ⟨c, hc, rfl⟩))

theorem mem_computeForms_dest (c d : Str × Str) (hc : c ∈ compSymbolMap) (hd : d ∈ destMap) :
    (d.1 ++ '=' :: c.1, "111".toList ++ c.2 ++ d.2 ++ "000".toList) ∈ computeForms := by
  unfold computeForms
  exact List.mem_append_left _ (List.mem_append_right _
    (List.mem_flatMap.mpr ⟨d, hd, List.mem_map.mpr ⟨c, hc, rfl⟩⟩))

theorem mem_computeForms_jump (c j : Str × Str) (hc : c ∈ compSymbolMap) (hj : j ∈ jumpMap) :
    (c.1 ++ ';' :: j.1, "111".toList ++ c.2 ++ "000".toList ++ j.2) ∈ computeForms := by
  unfold computeForms
  exact List.mem_append_right _
    (List.mem_flatMap.mpr ⟨c, hc, List.mem_map.mpr ⟨j, hj, rfl⟩⟩)

/-- The second loop on a text of `computeForms`: it writes the digits listed
with the text and leaves the state as it is. -/
theorem pass2Instruction_computeForm (e : Str × Str) (he : e ∈ computeForms) (st : Pass2) :
    pass2Instruction st e.1 = .ok (e.2 ++ ['\n'], st) := by
  obtain ⟨h1, _, h3⟩ := computeForms_encoded e he
  have hc : cInstruction e.1 = .ok (e.2 ++ ['\n']) := by
    cases hx : cInstruction e.1 with
    | error err => rw [hx] at h1; cases h1
    | ok w =>
      rw [hx] at h1
      simp only [Except.toOption, Option.some.injEq] at h1
      rw [h1]
  rw [pass2Instruction, if_neg (by rw [h3]; exact Bool.false_ne_true), hc]

set_option maxRecDepth 100000 in
/-- Reading a word of `computeForms` back gives the text it is listed
with. -/
theorem decodeWord_computeForms : ∀ e ∈ computeForms, decodeWord e.2 = e.1 := by
  decide

/-- C15: for keys `c`, `d`, `j` of the computation, destination and jump
tables, the second loop writes for `comp`, `dest=comp` and `comp;jump` the
word made of `111`, the seven-digit code of `comp`, the three-digit code of
`dest` (`000` without `=`) and the three-digit code of `jump` (`000` without
`;`), followed by a newline; each word is sixteen characters `0` or `1`.  So
`D=D+1` gives `1110011111010000` and `0;JMP` gives `1110101010000111`. -/
theorem C15_single_clause_forms (c d j : Str × Str) (hc : c ∈ compSymbolMap)
    (hd : d ∈ destMap) (hj : j ∈ jumpMap) (st : Pass2) :
    (pass2Instruction st c.1 =
        .ok ("111".toList ++ c.2 ++ "000".toList ++ "000".toList ++ ['\n'], st) ∧
      pass2Instruction st (d.1 ++ '=' :: c.1) =
        .ok ("111".toList ++ c.2 ++ d.2 ++ "000".toList ++ ['\n'], st) ∧
      pass2Instruction st (c.1 ++ ';' :: j.1) =
        .ok ("111".toList ++ c.2 ++ "000".toList ++ j.2 ++ ['\n'], st)) ∧
    (isWord16 ("111".toList ++ c.2 ++ "000".toList ++ "000".toList) = true ∧
      isWord16 ("111".toList ++ c.2 ++ d.2 ++ "000".toList) = true ∧
      isWord16 ("111".toList ++ c.2 ++ "000".toList ++ j.2) = true) ∧
    (c.2.length = 7 ∧ d.2.length = 3 ∧ j.2.length = 3) ∧
    (assemble ["D=D+1".toList, "0;JMP".toList]).written =
      ["1110011111010000\n".toList, "1110101010000111\n".toList] := by
  have m1 := mem_computeForms_comp c hc
  have m2 := mem_computeForms_dest c d hc hd
  have m3 := mem_computeForms_jump c j hc hj
  refine ⟨⟨?_, ?_, ?_⟩, ⟨?_, ?_, ?_⟩, ⟨?_, ?_, ?_⟩, ?_⟩
  · exact pass2Instruction_computeForm _ m1 st
  · exact pass2Instruction_computeForm _ m2 st
  · exact pass2Instruction_computeForm _ m3 st
  · exact (computeForms_encoded _ m1).2.1
  · exact (computeForms_encoded _ m2).2.1
  · exact (computeForms_encoded _ m3).2.1
  · exact (by decide : ∀ e ∈ compSymbolMap, e.2.length = 7) c hc
  · exact (by decide : ∀ e ∈ destMap, e.2.length = 3) d hd
  · exact (by decide : ∀ e ∈ jumpMap, e.2.length = 3) j hj
  · decide

theorem C15_single_clause_forms_witness :
    (("D+1".toList, "0011111".toList) ∈ compSymbolMap ∧
      ("D".toList, "010".toList) ∈ destMap ∧ ("JMP".toList, "111".toList) ∈ jumpMap) ∧
    (pass2Instruction { symbolMap := symbolMap, nextSymbolAddress := 16 } "D+1".toList =
        .ok ("111".toList ++ "0011111".toList ++ "000".toList ++ "000".toList ++ ['\n'],
          { symbolMap := symbolMap, nextSymbolAddress := 16 }) ∧
      pass2Instruction { symbolMap := symbolMap, nextSymbolAddress := 16 }
          ("D".toList ++ '=' :: "D+1".toList) =
        .ok ("111".toList ++ "0011111".toList ++ "010".toList ++ "000".toList ++ ['\n'],
          { symbolMap := symbolMap, nextSymbolAddress := 16 }) ∧
      pass2Instruction { symbolMap := symbolMap, nextSymbolAddress := 16 }
          ("D+1".toList ++ ';' :: "JMP".toList) =
        .ok ("111".toList ++ "0011111".toList ++ "000".toList ++ "111".toList ++ ['\n'],
          { symbolMap := symbolMap, nextSymbolAddress := 16 })) ∧
    (isWord16 ("111".toList ++ "0011111".toList ++ "000".toList ++ "000".toList) = true ∧
      isWord16 ("111".toList ++ "0011111".toList ++ "010".toList ++ "000".toList) = true ∧
      isWord16 ("111".toList ++ "0011111".toList ++ "000".toList ++ "111".toList) = true) ∧
    ("0011111".toList.length = 7 ∧ "010".toList.length = 3 ∧ "111".toList.length = 3) ∧
    (assemble ["D=D+1".toList, "0;JMP".toList]).written =
      ["1110011111010000\n".toList, "1110101010000111\n".toList] :=
  ⟨by decide,
    C15_single_clause_forms ("D+1".toList, "0011111".toList) ("D".toList, "010".toList)
      ("JMP".toList, "111".toList) (by decide) (by decide) (by decide)
      { symbolMap := symbolMap, nextSymbolAddress := 16 }⟩

/-- C18: when the second loop writes the same word for two compute
instructions of the forms `comp`, `dest=comp`, `comp;jump` with fields from
the three tables, the two texts are equal.  Each table gives different codes
to different keys, and no destination or jump code is `000`. -/
theorem C18_word_determines_instruction (x y : Str)
    (hx : x ∈ computeForms.map Prod.fst) (hy : y ∈ computeForms.map Prod.fst)
    (st st' s s' : Pass2) (w : Str)
    (h1 : pass2Instruction st x = .ok (w, s)) (h2 : pass2Instruction st' y = .ok (w, s')) :
    x = y ∧
      (∀ a ∈ compSymbolMap, ∀ b ∈ compSymbolMap, a.2 = b.2 → a = b) ∧
      (∀ a ∈ destMap, ∀ b ∈ destMap, a.2 = b.2 → a = b) ∧
      (∀ a ∈ jumpMap, ∀ b ∈ jumpMap, a.2 = b.2 → a = b) ∧
      (∀ a ∈ destMap, a.2 ≠ "000".toList) ∧ (∀ a ∈ jumpMap, a.2 ≠ "000".toList) := by
  refine ⟨?_, by decide, by decide, by decide, by decide, by decide⟩
  obtain ⟨e1, he1, rfl⟩ := List.mem_map.mp hx
  obtain ⟨e2, he2, rfl⟩ := List.mem_map.mp hy
  rw [pass2Instruction_computeForm e1 he1 st] at h1
  rw [pass2Instruction_computeForm e2 he2 st'] at h2
  simp only [Except.ok.injEq, Prod.mk.injEq] at h1 h2
  have hw : e1.2 = e2.2 := List.append_cancel_right (h1.1.trans h2.1.symm)
  rw [← decodeWord_computeForms e1 he1, ← decodeWord_computeForms e2 he2, hw]

theorem C18_word_determines_instruction_witness :
    "D=M".toList ∈ computeForms.map Prod.fst ∧
    "D=M".toList = "D=M".toList ∧
      (∀ a ∈ compSymbolMap, ∀ b ∈ compSymbolMap, a.2 = b.2 → a = b) ∧
      (∀ a ∈ destMap, ∀ b ∈ destMap, a.2 = b.2 → a = b) ∧
      (∀ a ∈ jumpMap, ∀ b ∈ jumpMap, a.2 = b.2 → a = b) ∧
      (∀ a ∈ destMap, a.2 ≠ "000".toList) ∧ (∀ a ∈ jumpMap, a.2 ≠ "000".toList) :=
  ⟨by decide,
    C18_word_determines_instruction "D=M".toList "D=M".toList (by decide) (by decide)
      { symbolMap := symbolMap, nextSymbolAddress := 16 }
      { symbolMap := [], nextSymbolAddress := 20 }
      { symbolMap := symbolMap, nextSymbolAddress := 16 }
      { symbolMap := [], nextSymbolAddress := 20 }
      "1111110000010000\n".toList rfl rfl⟩

/-- C19: every entry of the computation table has a code of seven
characters `0` or `1`.  When its expression mentions `M`, the expression with
`A` for `M` is in the table too, with a code that begins with `0`, and the
code of the entry is `1` followed by the last six characters of that code;
otherwise the code of the entry begins with `0`.  The table has 28 entries,
and the expressions that mention `M` are the ten listed. -/
theorem C19_comp_codes (e : Str × Str) (he : e ∈ compSymbolMap) :
    (e.2.length = 7 ∧ ∀ c ∈ e.2, c = '0' ∨ c = '1') ∧
    (if 'M' ∈ e.1 then
        (mapGet compSymbolMap (withAForM e.1)).map (fun a => (a.head?, '1' :: a.drop 1)) =
          some (some '0', e.2)
      else e.2.head? = some '0') ∧
    compSymbolMap.length = 28 ∧
    (compSymbolMap.filter (fun p => decide ('M' ∈ p.1))).map Prod.fst =
      ["M".toList, "!M".toList, "-M".toList, "M+1".toList, "M-1".toList, "D+M".toList,
        "D-M".toList, "M-D".toList, "D&M".toList, "D|M".toList] := by
  refine ⟨?_, ?_, by decide, by decide⟩
  · exact (by decide : ∀ p ∈ compSymbolMap,
      p.2.length = 7 ∧ ∀ c ∈ p.2, c = '0' ∨ c = '1') e he
  · exact (by decide : ∀ p ∈ compSymbolMap,
      if 'M' ∈ p.1 then
        (mapGet compSymbolMap (withAForM p.1)).map (fun a => (a.head?, '1' :: a.drop 1)) =
          some (some '0', p.2)
      else p.2.head? = some '0') e he

theorem C19_comp_codes_witness :
    ("D+M".toList, "1000010".toList) ∈ compSymbolMap ∧
    ("1000010".toList.length = 7 ∧ ∀ c ∈ "1000010".toList, c = '0' ∨ c = '1') ∧
    (if 'M' ∈ "D+M".toList then
        (mapGet compSymbolMap (withAForM "D+M".toList)).map
            (fun a => (a.head?, '1' :: a.drop 1)) =
          some (some '0', "1000010".toList)
      else "1000010".toList.head? = some '0') ∧
    compSymbolMap.length = 28 ∧
    (compSymbolMap.filter (fun p => decide ('M' ∈ p.1))).map Prod.fst =
      ["M".toList, "!M".toList, "-M".toList, "M+1".toList, "M-1".toList, "D+M".toList,
        "D-M".toList, "M-D".toList, "D&M".toList, "D|M".toList] :=
  ⟨by decide, C19_comp_codes ("D+M".toList, "1000010".toList) (by decide)⟩

theorem addressWord_natCast_injective (m n : Nat)
    (h : addressWord (m : Int) = addressWord (n : Int)) : m = n := by
  have h1 : pad16 (formatInt (m : Int)) = pad16 (formatInt (n : Int)) :=
    List.append_cancel_right h
  have h2 := congrArg binaryValue h1
  rw [binaryValue_pad16, binaryValue_pad16, formatInt_natCast, formatInt_natCast,
    bits_value _ _ (Nat.lt_succ_self m), bits_value _ _ (Nat.lt_succ_self n)] at h2
  exact h2

/-- C16 (counterexample): `+5` is not a decimal numeral and the program
`(+5)`, `D=M`, `(+5)`, `@+5` binds it twice, the last time when one
instruction has been collected; yet `@+5` writes the binary of 5, not of 1,
because `atoi` accepts `+5`. -/
theorem C16_signed_label_read_as_number :
    isNumeral "+5".toList = false ∧
    labelOf (cleaned "(+5)".toList) = some "+5".toList ∧
    instructionsOf ["(+5)".toList, "D=M".toList] = ["D=M".toList] ∧
    instructionsOf ["(+5)".toList, "D=M".toList, "(+5)".toList, "@+5".toList] =
      ["D=M".toList, "@+5".toList] ∧
    (assemble ["(+5)".toList, "D=M".toList, "(+5)".toList, "@+5".toList]).written =
      ["1111110000010000\n".toList, "0000000000000101\n".toList] ∧
    addressWord 1 = "0000000000000001\n".toList := by
  decide

/-- C16 (amended): let a program that pass 1 accepts have a line `l` that
binds the label `L`, rejected by `atoi`, and let no later line bind `L`,
whatever the earlier lines bind.  Then every instruction `@L` of the program
writes the zero-padded binary of the number of instruction lines before `l`,
and writes the binary of no other number. -/
theorem C16_last_definition_wins (pre post : List Str) (l L : Str) (p : Pass1)
    (h : pass1 initial (pre ++ l :: post) = .ok p)
    (hl : labelOf (cleaned l) = some L) (ha : atoi L = none)
    (hlast : ∀ r ∈ post, labelOf (cleaned r) ≠ some L)
    (i : Nat) (hi : p.instructions.get? i = some ('@' :: L)) :
    (assemble (pre ++ l :: post)).written.get? i =
        some (pad16 (formatInt ((instructionsOf pre).length : Int)) ++ ['\n']) ∧
      ∀ n : Nat, n ≠ (instructionsOf pre).length →
        (assemble (pre ++ l :: post)).written.get? i ≠
          some (pad16 (formatInt (n : Int)) ++ ['\n']) := by
  have hw := label_resolved pre post l L p h hl ha hlast i hi
  rw [assemble_of_pass1 _ p h]
  refine ⟨hw, ?_⟩
  intro n hn hc
  have hc' : (pass2 (startOfPass2 p) p.instructions).written.get? i =
      some (addressWord (n : Int)) := hc
  rw [hw] at hc'
  simp only [Option.some.injEq] at hc'
  exact hn (addressWord_natCast_injective _ _ hc').symm

theorem C16_last_definition_wins_witness :
    pass1 initial (["(L)".toList, "D=M".toList] ++ "(L)".toList :: ["@L".toList]) =
      .ok { symbolMap := mapSet (mapSet symbolMap "L".toList 0) "L".toList 1,
            instructions := ["D=M".toList, "@L".toList] } ∧
    labelOf (cleaned "(L)".toList) = some "L".toList ∧
    (assemble (["(L)".toList, "D=M".toList] ++ "(L)".toList :: ["@L".toList])).written.get? 1 =
        some (pad16 (formatInt ((instructionsOf ["(L)".toList, "D=M".toList]).length : Int)) ++
          ['\n']) ∧
      ∀ n : Nat, n ≠ (instructionsOf ["(L)".toList, "D=M".toList]).length →
        (assemble
            (["(L)".toList, "D=M".toList] ++ "(L)".toList :: ["@L".toList])).written.get? 1 ≠
          some (pad16 (formatInt (n : Int)) ++ ['\n']) :=
  ⟨rfl, by decide,
    C16_last_definition_wins ["(L)".toList, "D=M".toList] ["@L".toList] "(L)".toList
      "L".toList
      { symbolMap := mapSet (mapSet symbolMap "L".toList 0) "L".toList 1,
        instructions := ["D=M".toList, "@L".toList] }
      rfl (by decide) (by decide) (by decide) 1 rfl⟩

end Assembler
